import Mathlib

/-!
Verification of the ebook library manager (`manager.py`).

The script maintains a persistent content-hash index of an ebook tree in a
SQLite table `files(path PRIMARY KEY, hash, size, mtime, ext)` and offers three
commands: `sync` (two-pass incremental reconciliation of the tree against the
index), `dedup` (delete files under an "Unorganized" path token whose content
also exists outside it), and `summary` (read-only report, out of scope here).

Shallow embedding conventions:
* the SQLite table is a `List FileRecord` in row (rowid/insertion) order;
  `INSERT .. ON CONFLICT(path) DO UPDATE` updates in place, plain `INSERT`
  appends, `DELETE` filters;
* the filesystem is an association list `FS` from path strings to file state;
  the content digest computed by `sha256` (which streams the file's bytes) is
  modelled by the `hash` field of the file state: two files have equal `hash`
  exactly when their contents are identical, which is the design's
  collision-free assumption for the 256-bit digest;
* `st_mtime` (a Python float) is modelled as `Int`; the code only ever
  compares mtimes for exact equality, never does arithmetic on them;
* the race window in pass 1 of `sync` (a file can vanish between directory
  listing and `stat`, or between `stat` and the full read) is modelled by
  giving each walked file explicit `statRes` / `readRes` outcomes; the
  race-free runs instantiate both from a fixed filesystem;
* SQLite calls made by `cmd_sync` are also recorded as an explicit trace
  (`DbCall`), so that the transactional behaviour of the single
  `conn.commit()` at the end of the run can be stated.
-/

namespace EbookManager

/-! ### Path / string helpers (Python `Path.suffix`, `str.lower`, `instr`) -/

/-- Final path component: the text after the last `/` (model of `Path(...).name`). -/
def pathNameChars (p : List Char) : List Char :=
  ((p.reverse).takeWhile (fun c => c != '/')).reverse

/-- Python `Path.suffix` on a file name: the substring from the last dot on,
provided that dot is neither the first nor the last character of the name. -/
def pySuffixChars (name : List Char) : List Char :=
  match (name.reverse).findIdx? (fun c => c == '.') with
  | none => []
  | some j =>
    let i := name.length - 1 - j
    if 0 < i ∧ i < name.length - 1 then name.drop i else []

/-- Python `Path(p).suffix`. -/
def pySuffix (p : String) : String :=
  String.mk (pySuffixChars (pathNameChars p.toList))

/-- Python `str.lower()` (sufficient for the ASCII extensions involved). -/
def lowerStr (s : String) : String :=
  String.mk (s.toList.map Char.toLower)

/-- Does `needle` start the list `l`? -/
def chStarts : List Char → List Char → Bool
  | [], _ => true
  | _ :: _, [] => false
  | a :: as, b :: bs => a == b && chStarts as bs

/-- Does `needle` occur contiguously inside `l`? -/
def chHasSub (needle : List Char) : List Char → Bool
  | [] => needle.isEmpty
  | b :: bs => chStarts needle (b :: bs) || chHasSub needle bs

/-- SQLite `instr(s, needle) > 0`: `needle` occurs as a substring of `s`. -/
def strHasSub (s needle : String) : Bool :=
  chHasSub needle.toList s.toList

/-! ### Data model -/

/-- One row of the `files` table (`path` is the primary key). -/
structure FileRecord where
  path : String
  hash : String
  size : Nat
  mtime : Int
  ext : String
deriving DecidableEq

/-- The `files` table, in row order. -/
abbrev DB := List FileRecord

/-- On-disk state of one file; `hash` stands for its content (see header). -/
structure FileInfo where
  size : Nat
  mtime : Int
  hash : String
deriving DecidableEq

/-- The filesystem: paths with their current file state, in walk order. -/
abbrev FS := List (String × FileInfo)

/-- First binding of a path in the filesystem (file lookup). -/
def lookupFS (fs : FS) (p : String) : Option FileInfo :=
  (fs.find? (fun e => e.1 == p)).map (·.2)

/-- `Path(p).stat()`: `st_size` and `st_mtime`, or `none` if the file is gone. -/
def statFS (fs : FS) (p : String) : Option (Nat × Int) :=
  (lookupFS fs p).map (fun fi => (fi.size, fi.mtime))

/-- `Path(p).exists()`. -/
def existsFS (fs : FS) (p : String) : Bool :=
  (lookupFS fs p).isSome

/-- `sha256(p)`: content digest of the file at `p`, `none` when the file
vanished before the read completed (`FileNotFoundError`). -/
def sha256 (fs : FS) (p : String) : Option String :=
  (lookupFS fs p).map (·.hash)

/-- `p.unlink()`: remove the file at path `p`. -/
def removeFile (fs : FS) (p : String) : FS :=
  fs.filter (fun e => e.1 != p)

/-! ### SQL operations on the `files` table -/

/-- `SELECT hash FROM files WHERE path=? AND size=? AND mtime=?`. -/
def lookupExact (db : DB) (p : String) (size : Nat) (mtime : Int) : Option String :=
  (db.find? (fun r => r.path == p && r.size == size && r.mtime == mtime)).map (·.hash)

/-- `INSERT INTO files VALUES (...) ON CONFLICT(path) DO UPDATE SET ...`:
replace the row keyed by `r.path` in place, or append a new row. -/
def upsert (db : DB) (r : FileRecord) : DB :=
  if db.any (fun x => x.path == r.path) then
    db.map (fun x => if x.path == r.path then r else x)
  else db ++ [r]

/-- `DELETE FROM files WHERE path=?`. -/
def deleteByPath (db : DB) (p : String) : DB :=
  db.filter (fun x => x.path != p)

/-- `SELECT path FROM files WHERE hash=? AND path<>?`. -/
def pathsWithHashExcluding (db : DB) (h : String) (p : String) : List String :=
  (db.filter (fun x => x.hash == h && x.path != p)).map (·.path)

/-- The `path PRIMARY KEY` table invariant: row paths are pairwise distinct. -/
def pathsNodup (db : DB) : Prop :=
  (db.map (·.path)).Nodup

instance (db : DB) : Decidable (pathsNodup db) := by
  unfold pathsNodup; infer_instance

/-! ### SQLite call trace (for the transaction claim) -/

/-- A data-modifying SQL statement issued by `cmd_sync`. -/
inductive DBOp where
  | up (r : FileRecord)
  | del (p : String)
deriving DecidableEq

/-- Effect of one statement on the table. -/
def applyOp (db : DB) : DBOp → DB
  | .up r => upsert db r
  | .del p => deleteByPath db p

/-- One call into the SQLite connection: a DML statement or `conn.commit()`. -/
inductive DbCall where
  | exec (op : DBOp)
  | commit
deriving DecidableEq

/-- In-transaction table contents after replaying a call list over `db`. -/
def curAfter (db : DB) : List DbCall → DB
  | [] => db
  | DbCall.exec op :: rest => curAfter (applyOp db op) rest
  | DbCall.commit :: rest => curAfter db rest

/-- Durable (committed) table contents after replaying a call list: with the
WAL journal, an interrupted process recovers to the last committed state.
`committed` is the state on disk, `cur` the open transaction's view. -/
def persistedRun (committed cur : DB) : List DbCall → DB
  | [] => committed
  | DbCall.exec op :: rest => persistedRun committed (applyOp cur op) rest
  | DbCall.commit :: rest => persistedRun cur cur rest

/-! ### Synchronizer (`cmd_sync`) -/

/-- One file yielded by `os.walk`, together with the outcome of the racy
`stat` and full-content read that follow the listing.  `statRes = none`
models `FileNotFoundError` from `p.stat()`; `readRes = none` models
`FileNotFoundError` raised inside `sha256` after a successful `stat`. -/
structure WalkItem where
  path : String
  statRes : Option (Nat × Int)
  readRes : Option String
deriving DecidableEq

/-- Python `set.add` on a list model of a set. -/
def insertUniq (l : List String) (x : String) : List String :=
  if l.contains x then l else l ++ [x]

/-- Mutable state of pass 1 of `cmd_sync`: the open connection's table view,
`seen_paths`, `present_hashes`, the number of `sha256` calls made, and the
SQL calls issued so far. -/
structure SyncSt where
  db : DB
  seen : List String
  present : List String
  hashes : Nat
  calls : List DbCall
deriving DecidableEq

/-- `upsert_and_track(p)` (manager.py lines 55-89). -/
def upsert_and_track (st : SyncSt) (p : String) (statRes : Option (Nat × Int))
    (readRes : Option String) : SyncSt :=
  match statRes with
  | none => st
  | some (size, mtime) =>
    let st := { st with seen := insertUniq st.seen p }
    match lookupExact st.db p size mtime with
    | some h => { st with present := insertUniq st.present h }
    | none =>
      match readRes with
      | none => { st with hashes := st.hashes + 1 }
      | some h =>
        let r : FileRecord := ⟨p, h, size, mtime, lowerStr (pySuffix p)⟩
        { st with
          present := insertUniq st.present h
          db := upsert st.db r
          hashes := st.hashes + 1
          calls := st.calls ++ [DbCall.exec (DBOp.up r)] }

/-- The extension filter `p.suffix.lower() in exts`. -/
def includedExt (exts : List String) (p : String) : Bool :=
  exts.contains (lowerStr (pySuffix p))

/-- One step of the walk loop (manager.py lines 91-95). -/
def pass1Step (exts : List String) (st : SyncSt) (w : WalkItem) : SyncSt :=
  if includedExt exts w.path then upsert_and_track st w.path w.statRes w.readRes else st

/-- Pass 1: the walk over the tree. -/
def pass1 (exts : List String) (st : SyncSt) (walk : List WalkItem) : SyncSt :=
  walk.foldl (pass1Step exts) st

/-- State of the reconciliation loop (pass 2). -/
structure RecSt where
  db : DB
  missing : List String
  removed_moved : Nat
  removed_missing : Nat
  calls : List DbCall
deriving DecidableEq

/-- One iteration of the stale-entry loop (manager.py lines 104-126), for the
snapshot entry `(path, hash)`.  `ex2` is `Path(...).exists()` at pass-2 time. -/
def reconcileStep (clean : Bool) (ex2 : String → Bool) (seen : List String)
    (st : RecSt) (e : String × String) : RecSt :=
  if seen.contains e.1 then st
  else if ex2 e.1 then st
  else
    let moved := (pathsWithHashExcluding st.db e.2 e.1).any ex2
    if moved then
      { st with
        db := deleteByPath st.db e.1
        removed_moved := st.removed_moved + 1
        calls := st.calls ++ [DbCall.exec (DBOp.del e.1)] }
    else if clean then
      { st with
        db := deleteByPath st.db e.1
        removed_missing := st.removed_missing + 1
        calls := st.calls ++ [DbCall.exec (DBOp.del e.1)] }
    else
      { st with missing := st.missing ++ [e.1] }

/-- Observable outcome of one `sync` run. -/
structure SyncResult where
  db : DB
  missing : List String
  removed_moved : Nat
  removed_missing : Nat
  hashes : Nat
  calls : List DbCall
deriving DecidableEq

/-- Pass 2: the loop over the `SELECT path, hash FROM files` snapshot. -/
def reconcile (clean : Bool) (ex2 : String → Bool) (seen : List String)
    (st : RecSt) (es : List (String × String)) : RecSt :=
  es.foldl (reconcileStep clean ex2 seen) st

/-- `cmd_sync` over an explicit walk (with per-file race outcomes) and an
explicit pass-2 existence oracle `ex2`; ends with the single `conn.commit()`
of manager.py line 128. -/
def cmd_sync_run (exts : List String) (clean : Bool) (walk : List WalkItem)
    (ex2 : String → Bool) (db0 : DB) : SyncResult :=
  let st1 := pass1 exts ⟨db0, [], [], 0, []⟩ walk
  let stale := st1.db.map (fun r => (r.path, r.hash))
  let rst := reconcile clean ex2 st1.seen ⟨st1.db, [], 0, 0, st1.calls⟩ stale
  ⟨rst.db, rst.missing, rst.removed_moved, rst.removed_missing, st1.hashes,
    rst.calls ++ [DbCall.commit]⟩

/-- The walk produced by `os.walk` over a quiescent filesystem: every listed
file stats and reads successfully, with its current metadata and content. -/
def walkOf (fs : FS) : List WalkItem :=
  fs.map (fun e => ⟨e.1, statFS fs e.1, sha256 fs e.1⟩)

/-- `cmd_sync` on a filesystem that does not change during the run. -/
def cmd_sync (exts : List String) (clean : Bool) (fs : FS) (db0 : DB) : SyncResult :=
  cmd_sync_run exts clean (walkOf fs) (existsFS fs) db0

/-! ### Deduplicator (`cmd_dedup`) -/

/-- The candidate query (manager.py lines 146-156): rows whose path contains
the token and whose hash also occurs on some row whose path does not. -/
def dedupCandidates (db : DB) (token : String) : List String :=
  let outside := (db.filter (fun r => !(strHasSub r.path token))).map (·.hash)
  ((db.filter (fun r => strHasSub r.path token && outside.contains r.hash)).map (·.path))

/-- State threaded through the deletion loop. -/
structure DedupSt where
  db : DB
  fs : FS
  errors : List String
  deleted : Nat
deriving DecidableEq

/-- One iteration of the deletion loop (manager.py lines 171-178): try
`p.unlink()`; only on success delete the row and bump the counter, otherwise
report on stderr and keep going.  `allow` models external unlink failures
(e.g. permission denied); a missing file also makes `unlink` raise. -/
def dedupStep (allow : String → Bool) (st : DedupSt) (p : String) : DedupSt :=
  if existsFS st.fs p && allow p then
    { db := deleteByPath st.db p
      fs := removeFile st.fs p
      errors := st.errors
      deleted := st.deleted + 1 }
  else
    { st with errors := st.errors ++ [p] }

/-- Observable outcome of one `dedup` run.  `printed` is the candidate list
shown by `--dry-run`; `errors` the paths reported on stderr. -/
structure DedupResult where
  db : DB
  fs : FS
  printed : List String
  errors : List String
  deleted : Nat
  total : Nat
deriving DecidableEq

/-- `cmd_dedup` (manager.py lines 142-182).  The `n == 0` early return and
the dry-run branch leave every state untouched. -/
def cmd_dedup (db : DB) (token : String) (dryRun : Bool) (fs : FS)
    (allow : String → Bool) : DedupResult :=
  let cands := dedupCandidates db token
  let n := cands.length
  if n = 0 then ⟨db, fs, [], [], 0, n⟩
  else if dryRun then ⟨db, fs, cands, [], 0, n⟩
  else
    let st := cands.foldl (dedupStep allow) ⟨db, fs, [], 0⟩
    ⟨st.db, st.fs, [], st.errors, st.deleted, n⟩

/-! ## Basic lemmas about the table and filesystem operations -/

theorem mem_upsert {db : DB} {r x : FileRecord} (hx : x ∈ upsert db r) :
    x ∈ db ∨ x = r := by
  unfold upsert at hx
  split at hx
  · rcases List.mem_map.mp hx with ⟨y, hy, hyx⟩
    by_cases h : (y.path == r.path) = true
    · simp [h] at hyx; right; exact hyx.symm
    · simp [h] at hyx; left; exact hyx ▸ hy
  · rcases List.mem_append.mp hx with h | h
    · exact Or.inl h
    · right; simpa using h

theorem mem_upsert_of_ne {db : DB} {r x : FileRecord} (hx : x ∈ db)
    (hne : x.path ≠ r.path) : x ∈ upsert db r := by
  unfold upsert
  split
  · refine List.mem_map.mpr ⟨x, hx, ?_⟩
    simp [beq_eq_false_iff_ne.mpr hne]
  · exact List.mem_append.mpr (Or.inl hx)

theorem lookupExact_isSome_iff {db : DB} {p : String} {sz : Nat} {mt : Int} :
    (lookupExact db p sz mt).isSome ↔
      ∃ r ∈ db, r.path = p ∧ r.size = sz ∧ r.mtime = mt := by
  unfold lookupExact
  rw [Option.isSome_map']
  rw [List.find?_isSome]
  constructor
  · rintro ⟨r, hr, hpred⟩
    simp only [Bool.and_eq_true, beq_iff_eq] at hpred
    exact ⟨r, hr, hpred.1.1, hpred.1.2, hpred.2⟩
  · rintro ⟨r, hr, h1, h2, h3⟩
    exact ⟨r, hr, by simp [h1, h2, h3]⟩

theorem mem_deleteByPath {db : DB} {p : String} {x : FileRecord} :
    x ∈ deleteByPath db p ↔ x ∈ db ∧ x.path ≠ p := by
  unfold deleteByPath
  rw [List.mem_filter]
  simp [bne_iff_ne]

theorem deleteByPath_subset {db : DB} {p : String} {x : FileRecord}
    (hx : x ∈ deleteByPath db p) : x ∈ db :=
  (mem_deleteByPath.mp hx).1

theorem filterPath_replace {db : DB} {r : FileRecord} {p : String}
    (hne : r.path ≠ p) :
    (db.map (fun x => if x.path == r.path then r else x)).filter (fun x => x.path == p)
      = db.filter (fun x => x.path == p) := by
  induction db with
  | nil => rfl
  | cons y ys ih =>
    simp only [List.map_cons, List.filter_cons]
    by_cases hy : (y.path == r.path) = true
    · have hyp : (y.path == p) = false := by
        rw [beq_iff_eq] at hy
        exact beq_eq_false_iff_ne.mpr (hy ▸ hne)
      simp only [hy, if_true]
      simp only [beq_eq_false_iff_ne.mpr hne, hyp]
      simpa using ih
    · simp only [hy]
      simp only [Bool.false_eq_true, if_false]
      by_cases hyp : (y.path == p) = true
      · simp only [hyp, if_true]
        rw [ih]
      · simp only [hyp]
        simp only [Bool.false_eq_true, if_false]
        exact ih

theorem filterPath_upsert_ne {db : DB} {r : FileRecord} {p : String}
    (hne : r.path ≠ p) :
    (upsert db r).filter (fun x => x.path == p) = db.filter (fun x => x.path == p) := by
  unfold upsert
  split
  · exact filterPath_replace hne
  · rw [List.filter_append]
    simp [beq_eq_false_iff_ne.mpr hne]

theorem filterPath_deleteByPath_ne {db : DB} {q p : String} (hne : q ≠ p) :
    (deleteByPath db q).filter (fun x => x.path == p) = db.filter (fun x => x.path == p) := by
  unfold deleteByPath
  induction db with
  | nil => rfl
  | cons y ys ih =>
    simp only [List.filter_cons]
    by_cases hy : (y.path == p) = true
    · have hyq : (y.path != q) = true := by
        rw [beq_iff_eq] at hy
        rw [bne_iff_ne, hy]
        exact fun h => hne h.symm
      simp [hy, hyq, ih]
    · by_cases hq : (y.path != q) = true
      · simp [hy, hq, ih]
      · simp [hy, hq, ih]

theorem upsert_paths_nodup {db : DB} {r : FileRecord} (h : pathsNodup db) :
    pathsNodup (upsert db r) := by
  unfold upsert
  split
  · have : (db.map (fun x => if x.path == r.path then r else x)).map (·.path)
        = db.map (·.path) := by
      rw [List.map_map]
      apply List.map_congr_left
      intro x _
      by_cases hx : (x.path == r.path) = true
      · simp [Function.comp, hx, (beq_iff_eq.mp hx).symm]
      · simp [Function.comp, hx]
    unfold pathsNodup
    rw [this]
    exact h
  · unfold pathsNodup
    rw [List.map_append]
    next hany =>
    rw [List.nodup_append]
    refine ⟨h, List.nodup_singleton _, ?_⟩
    intro a ha hb
    simp only [List.map_cons, List.map_nil, List.mem_singleton] at hb
    subst hb
    rcases List.mem_map.mp ha with ⟨x, hx, hxp⟩
    exact hany (List.any_eq_true.mpr ⟨x, hx, beq_iff_eq.mpr hxp⟩)

theorem deleteByPath_paths_nodup {db : DB} {p : String} (h : pathsNodup db) :
    pathsNodup (deleteByPath db p) := by
  unfold pathsNodup deleteByPath at *
  exact (List.Sublist.map (·.path) (List.filter_sublist db)).nodup h

theorem lookupFS_mem {fs : FS} {p : String} {fi : FileInfo}
    (h : lookupFS fs p = some fi) : (p, fi) ∈ fs := by
  unfold lookupFS at h
  rcases Option.map_eq_some'.mp h with ⟨e, he, hfe⟩
  have hmem := List.mem_of_find?_eq_some he
  have hpred := List.find?_some he
  rw [beq_iff_eq] at hpred
  cases e
  simp only at hpred hfe
  subst hpred; subst hfe
  exact hmem

theorem lookupFS_eq_none {fs : FS} {p : String} (h : lookupFS fs p = none) :
    ∀ e ∈ fs, e.1 ≠ p := by
  unfold lookupFS at h
  rw [Option.map_eq_none'] at h
  intro e he
  have := List.find?_eq_none.mp h e he
  simpa [beq_iff_eq] using this

theorem lookupFS_isSome_of_mem {fs : FS} {e : String × FileInfo} (h : e ∈ fs) :
    (lookupFS fs e.1).isSome := by
  unfold lookupFS
  rw [Option.isSome_map', List.find?_isSome]
  exact ⟨e, h, by simp⟩

theorem existsFS_removeFile {fs : FS} {q p : String}
    (h : existsFS (removeFile fs q) p = true) : existsFS fs p = true := by
  unfold existsFS lookupFS removeFile at *
  rw [Option.isSome_map', List.find?_isSome] at *
  rcases h with ⟨e, he, hpe⟩
  exact ⟨e, (List.mem_filter.mp he).1, hpe⟩

theorem existsFS_removeFile_self {fs : FS} {p : String} :
    existsFS (removeFile fs p) p = false := by
  unfold existsFS lookupFS removeFile
  rw [Option.isSome_map']
  rw [Bool.eq_false_iff]
  intro hs
  rw [List.find?_isSome] at hs
  rcases hs with ⟨e, he, hpe⟩
  have := (List.mem_filter.mp he).2
  rw [beq_iff_eq] at hpe
  rw [bne_iff_ne] at this
  exact this hpe

theorem existsFS_removeFile_ne {fs : FS} {q p : String} (hne : p ≠ q) :
    existsFS (removeFile fs q) p = existsFS fs p := by
  unfold existsFS lookupFS removeFile
  rw [Option.isSome_map', Option.isSome_map']
  have hiff : ((fs.filter (fun e => e.1 != q)).find? (fun e => e.1 == p)).isSome ↔
      (fs.find? (fun e => e.1 == p)).isSome := by
    rw [List.find?_isSome, List.find?_isSome]
    constructor
    · rintro ⟨e, he, hp⟩
      exact ⟨e, (List.mem_filter.mp he).1, hp⟩
    · rintro ⟨e, he, hp⟩
      refine ⟨e, List.mem_filter.mpr ⟨he, ?_⟩, hp⟩
      rw [beq_iff_eq] at hp
      rw [bne_iff_ne]
      exact hp ▸ hne
  exact Bool.eq_iff_iff.mpr (by simpa using hiff)

/-! ## Pass-1 lemmas -/

theorem mem_insertUniq {l : List String} {x p : String} :
    p ∈ insertUniq l x ↔ p ∈ l ∨ p = x := by
  unfold insertUniq
  split
  · next h =>
    constructor
    · exact Or.inl
    · rintro (hp | rfl)
      · exact hp
      · exact List.mem_of_elem_eq_true h
  · simp

/-- `upsert_and_track` behaviour on the cache-hit fast path (manager.py 68-72):
the path is recorded as seen and the cached hash as present; the table, the
hash-computation count and the SQL call trace are untouched. -/
theorem uat_cached {st : SyncSt} {p : String} {sz : Nat} {mt : Int} {h : String}
    {rr : Option String} (hle : lookupExact st.db p sz mt = some h) :
    upsert_and_track st p (some (sz, mt)) rr =
      { st with seen := insertUniq st.seen p, present := insertUniq st.present h } := by
  simp [upsert_and_track, hle]

theorem uat_db_mem {st : SyncSt} {p : String} {sr : Option (Nat × Int)}
    {rr : Option String} {x : FileRecord}
    (hx : x ∈ (upsert_and_track st p sr rr).db) :
    x ∈ st.db ∨ ∃ sz mt h, sr = some (sz, mt) ∧ rr = some h ∧
      x = ⟨p, h, sz, mt, lowerStr (pySuffix p)⟩ := by
  rcases sr with _ | ⟨sz, mt⟩
  · exact Or.inl hx
  · rcases hle : lookupExact st.db p sz mt with _ | h
    · rcases rr with _ | h
      · simp only [upsert_and_track, hle] at hx
        exact Or.inl hx
      · simp only [upsert_and_track, hle] at hx
        rcases mem_upsert hx with h1 | h1
        · exact Or.inl h1
        · exact Or.inr ⟨sz, mt, h, rfl, rfl, h1⟩
    · simp only [upsert_and_track, hle] at hx
      exact Or.inl hx

theorem uat_filterPath {st : SyncSt} {p : String} {sr : Option (Nat × Int)}
    {rr : Option String} {p0 : String} (h : p = p0 → rr = none) :
    (upsert_and_track st p sr rr).db.filter (fun x => x.path == p0)
      = st.db.filter (fun x => x.path == p0) := by
  rcases sr with _ | ⟨sz, mt⟩
  · rfl
  · rcases hle : lookupExact st.db p sz mt with _ | hh
    · rcases hrr : rr with _ | hh
      · simp [upsert_and_track, hle, hrr]
      · by_cases hp : p = p0
        · rw [h hp] at hrr; cases hrr
        · simp only [upsert_and_track, hle, hrr]
          exact filterPath_upsert_ne hp
    · simp [upsert_and_track, hle]

theorem uat_seen {st : SyncSt} {p : String} {sr : Option (Nat × Int)}
    {rr : Option String} :
    (upsert_and_track st p sr rr).seen =
      if sr.isSome then insertUniq st.seen p else st.seen := by
  rcases sr with _ | ⟨sz, mt⟩
  · rfl
  · rcases hle : lookupExact st.db p sz mt with _ | hh
    · rcases rr with _ | hh
      · simp [upsert_and_track, hle]
      · simp [upsert_and_track, hle]
    · simp [upsert_and_track, hle]

/-- Pass-1 evolution of `seen_paths` is independent of the table contents. -/
def seenFold (exts : List String) (s : List String) (walk : List WalkItem) : List String :=
  walk.foldl
    (fun s w => if includedExt exts w.path && w.statRes.isSome then insertUniq s w.path else s) s

theorem pass1_seen {exts : List String} {walk : List WalkItem} {st : SyncSt} :
    (pass1 exts st walk).seen = seenFold exts st.seen walk := by
  induction walk generalizing st with
  | nil => rfl
  | cons w ws ih =>
    show (pass1 exts (pass1Step exts st w) ws).seen = _
    rw [ih]
    unfold seenFold
    simp only [List.foldl_cons]
    congr 1
    unfold pass1Step
    by_cases hinc : includedExt exts w.path = true
    · rw [if_pos hinc, uat_seen]
      simp [hinc]
    · rw [if_neg hinc]
      simp [hinc]

theorem mem_seenFold {exts : List String} {walk : List WalkItem} {s : List String}
    {p : String} :
    p ∈ seenFold exts s walk ↔
      p ∈ s ∨ ∃ w ∈ walk, includedExt exts w.path = true ∧ w.statRes.isSome ∧ w.path = p := by
  induction walk generalizing s with
  | nil => simp [seenFold]
  | cons w ws ih =>
    unfold seenFold
    simp only [List.foldl_cons]
    rw [show (List.foldl _ _ ws : List String) = seenFold exts _ ws from rfl, ih]
    by_cases hc : (includedExt exts w.path && w.statRes.isSome) = true
    · rw [if_pos hc]
      rw [Bool.and_eq_true] at hc
      constructor
      · rintro (hs | hrest)
        · rcases mem_insertUniq.mp hs with hs | rfl
          · exact Or.inl hs
          · exact Or.inr ⟨w, List.mem_cons_self _ _, hc.1, hc.2, rfl⟩
        · rcases hrest with ⟨w', hw', hp⟩
          exact Or.inr ⟨w', List.mem_cons_of_mem _ hw', hp⟩
      · rintro (hs | ⟨w', hw', hi, hsm, rfl⟩)
        · exact Or.inl (mem_insertUniq.mpr (Or.inl hs))
        · rcases List.mem_cons.mp hw' with rfl | hw'
          · exact Or.inl (mem_insertUniq.mpr (Or.inr rfl))
          · exact Or.inr ⟨w', hw', hi, hsm, rfl⟩
    · rw [if_neg hc]
      constructor
      · rintro (hs | ⟨w', hw', hp⟩)
        · exact Or.inl hs
        · exact Or.inr ⟨w', List.mem_cons_of_mem _ hw', hp⟩
      · rintro (hs | ⟨w', hw', hi, hsm, rfl⟩)
        · exact Or.inl hs
        · rcases List.mem_cons.mp hw' with rfl | hw'
          · exact absurd (by simp [hi, hsm]) hc
          · exact Or.inr ⟨w', hw', hi, hsm, rfl⟩

theorem pass1_db_mem {exts : List String} {walk : List WalkItem} (st : SyncSt)
    {x : FileRecord} (hx : x ∈ (pass1 exts st walk).db) :
    x ∈ st.db ∨ ∃ w ∈ walk, ∃ sz mt h, w.statRes = some (sz, mt) ∧ w.readRes = some h ∧
      x = ⟨w.path, h, sz, mt, lowerStr (pySuffix w.path)⟩ := by
  induction walk generalizing st with
  | nil => exact Or.inl hx
  | cons w ws ih =>
    rcases ih (pass1Step exts st w) hx with h1 | ⟨w', hw', hrest⟩
    · unfold pass1Step at h1
      split at h1
      · rcases uat_db_mem h1 with h2 | ⟨sz, mt, h, hsr, hrr, hx⟩
        · exact Or.inl h2
        · exact Or.inr ⟨w, List.mem_cons_self _ _, sz, mt, h, hsr, hrr, hx⟩
      · exact Or.inl h1
    · exact Or.inr ⟨w', List.mem_cons_of_mem _ hw', hrest⟩

theorem pass1_filterPath {exts : List String} {walk : List WalkItem} {st : SyncSt}
    {p0 : String} (h : ∀ w ∈ walk, w.path = p0 → w.readRes = none) :
    (pass1 exts st walk).db.filter (fun x => x.path == p0)
      = st.db.filter (fun x => x.path == p0) := by
  induction walk generalizing st with
  | nil => rfl
  | cons w ws ih =>
    show ((pass1 exts (pass1Step exts st w) ws).db.filter _) = _
    rw [ih (fun w' hw' => h w' (List.mem_cons_of_mem _ hw'))]
    unfold pass1Step
    split
    · exact uat_filterPath (h w (List.mem_cons_self _ _))
    · rfl

/-! ## Quiescent filesystems and the cache fast path -/

/-- Every item of the walk reports the fixed filesystem's stat and content. -/
def StaticWalk (fs : FS) (walk : List WalkItem) : Prop :=
  ∀ w ∈ walk, w.statRes = statFS fs w.path ∧ w.readRes = sha256 fs w.path

theorem walkOf_static (fs : FS) : StaticWalk fs (walkOf fs) := by
  intro w hw
  rcases List.mem_map.mp hw with ⟨e, _, rfl⟩
  exact ⟨rfl, rfl⟩

theorem walkOf_present (fs : FS) : ∀ w ∈ walkOf fs, (lookupFS fs w.path).isSome := by
  intro w hw
  rcases List.mem_map.mp hw with ⟨e, he, rfl⟩
  exact lookupFS_isSome_of_mem he

/-- The table can answer the size+mtime point lookup for `p` without hashing. -/
def cacheReady (fs : FS) (db : DB) (p : String) : Prop :=
  ∃ fi, lookupFS fs p = some fi ∧ (lookupExact db p fi.size fi.mtime).isSome

theorem self_mem_upsert {db : DB} {r : FileRecord} : r ∈ upsert db r := by
  unfold upsert
  split
  · next hany =>
    rcases List.any_eq_true.mp hany with ⟨x, hx, hxp⟩
    exact List.mem_map.mpr ⟨x, hx, by simp [hxp]⟩
  · simp

theorem cacheReady_uat_self {fs : FS} {st : SyncSt} {w : WalkItem}
    (hsr : w.statRes = statFS fs w.path) (hrr : w.readRes = sha256 fs w.path)
    (hsome : (lookupFS fs w.path).isSome) :
    cacheReady fs (upsert_and_track st w.path w.statRes w.readRes).db w.path := by
  rcases hfi : lookupFS fs w.path with _ | fi
  · rw [hfi] at hsome; cases hsome
  · have hsr' : w.statRes = some (fi.size, fi.mtime) := by
      rw [hsr]; unfold statFS; rw [hfi]; rfl
    have hrr' : w.readRes = some fi.hash := by
      rw [hrr]; unfold sha256; rw [hfi]; rfl
    rcases hle : lookupExact st.db w.path fi.size fi.mtime with _ | h
    · refine ⟨fi, hfi, ?_⟩
      rw [hsr', hrr']
      simp only [upsert_and_track, hle]
      rw [lookupExact_isSome_iff]
      exact ⟨_, self_mem_upsert, rfl, rfl, rfl⟩
    · refine ⟨fi, hfi, ?_⟩
      rw [hsr', uat_cached hle]
      simp [hle]

theorem cacheReady_uat_preserve {fs : FS} {st : SyncSt} {w : WalkItem} {p0 : String}
    (hsr : w.statRes = statFS fs w.path) (hcr : cacheReady fs st.db p0) :
    cacheReady fs (upsert_and_track st w.path w.statRes w.readRes).db p0 := by
  rcases hcr with ⟨fi0, hfi0, hle0⟩
  rcases hsrv : w.statRes with _ | ⟨sz, mt⟩
  · exact ⟨fi0, hfi0, by simpa [upsert_and_track, hsrv] using hle0⟩
  · rcases hle : lookupExact st.db w.path sz mt with _ | h
    · rcases hrr : w.readRes with _ | h
      · refine ⟨fi0, hfi0, ?_⟩
        simpa [upsert_and_track, hsrv, hle, hrr] using hle0
      · by_cases hp : w.path = p0
        · -- an upsert at `p0` is impossible: the lookup would have hit
          exfalso
          have : statFS fs w.path = some (sz, mt) := by rw [← hsr, hsrv]
          unfold statFS at this
          rw [hp, hfi0] at this
          simp only [Option.map_some'] at this
          cases this
          rw [hp] at hle
          rw [hle] at hle0
          cases hle0
        · refine ⟨fi0, hfi0, ?_⟩
          simp only [upsert_and_track, hsrv, hle, hrr]
          rw [lookupExact_isSome_iff] at hle0 ⊢
          rcases hle0 with ⟨x, hx, hx1, hx2, hx3⟩
          exact ⟨x, mem_upsert_of_ne hx (by rw [hx1]; exact fun hh => hp hh.symm), hx1, hx2, hx3⟩
    · refine ⟨fi0, hfi0, ?_⟩
      rw [uat_cached hle]
      simpa using hle0

theorem cacheReady_pass1_preserve {fs : FS} {exts : List String} {walk : List WalkItem}
    {st : SyncSt} {p0 : String} (hsw : StaticWalk fs walk)
    (hcr : cacheReady fs st.db p0) :
    cacheReady fs (pass1 exts st walk).db p0 := by
  induction walk generalizing st with
  | nil => exact hcr
  | cons w ws ih =>
    refine ih (fun w' hw' => hsw w' (List.mem_cons_of_mem _ hw')) ?_
    unfold pass1Step
    split
    · exact cacheReady_uat_preserve (hsw w (List.mem_cons_self _ _)).1 hcr
    · exact hcr

/-- After pass 1 over a quiescent tree, every included walked file has a
matching `(path, size, mtime)` row, so a second pass would be all cache hits. -/
theorem pass1_cacheReady_all {fs : FS} {exts : List String} {walk : List WalkItem}
    {st : SyncSt} (hsw : StaticWalk fs walk)
    (hpres : ∀ w ∈ walk, (lookupFS fs w.path).isSome) :
    ∀ w ∈ walk, includedExt exts w.path = true →
      cacheReady fs (pass1 exts st walk).db w.path := by
  induction walk generalizing st with
  | nil => intro w hw; cases hw
  | cons w ws ih =>
    intro w' hw' hinc
    rcases List.mem_cons.mp hw' with rfl | hw'
    · show cacheReady fs (pass1 exts (pass1Step exts st w') ws).db w'.path
      refine cacheReady_pass1_preserve (fun u hu => hsw u (List.mem_cons_of_mem _ hu)) ?_
      unfold pass1Step
      rw [if_pos hinc]
      exact cacheReady_uat_self (hsw w' (List.mem_cons_self _ _)).1
        (hsw w' (List.mem_cons_self _ _)).2 (hpres w' (List.mem_cons_self _ _))
    · exact ih (fun u hu => hsw u (List.mem_cons_of_mem _ hu))
        (fun u hu => hpres u (List.mem_cons_of_mem _ hu)) w' hw' hinc

/-- Pass 1 over a quiescent tree whose included files are all cache-ready
leaves the table untouched and computes no hash. -/
theorem pass1_id_of_cacheReady {fs : FS} {exts : List String} {walk : List WalkItem}
    (st : SyncSt) (hsw : StaticWalk fs walk)
    (hcr : ∀ w ∈ walk, includedExt exts w.path = true → cacheReady fs st.db w.path) :
    (pass1 exts st walk).db = st.db ∧ (pass1 exts st walk).hashes = st.hashes := by
  induction walk generalizing st with
  | nil => exact ⟨rfl, rfl⟩
  | cons w ws ih =>
    have hstep : (pass1Step exts st w).db = st.db ∧ (pass1Step exts st w).hashes = st.hashes := by
      unfold pass1Step
      by_cases hinc : includedExt exts w.path = true
      · rw [if_pos hinc]
        rcases hcr w (List.mem_cons_self _ _) hinc with ⟨fi, hfi, hle⟩
        have hsr' : w.statRes = some (fi.size, fi.mtime) := by
          rw [(hsw w (List.mem_cons_self _ _)).1]
          unfold statFS; rw [hfi]; rfl
        rcases ho : lookupExact st.db w.path fi.size fi.mtime with _ | h
        · rw [ho] at hle; cases hle
        · rw [hsr', uat_cached ho]
          exact ⟨rfl, rfl⟩
      · rw [if_neg hinc]
        exact ⟨rfl, rfl⟩
    have := ih (pass1Step exts st w)
      (fun u hu => hsw u (List.mem_cons_of_mem _ hu))
      (fun u hu hi => by rw [hstep.1]; exact hcr u (List.mem_cons_of_mem _ hu) hi)
    exact ⟨this.1.trans hstep.1, this.2.trans hstep.2⟩

/-! ## Pass-2 (reconciliation) lemmas -/

theorem mem_pathsWithHashExcluding {db : DB} {h p q : String} :
    q ∈ pathsWithHashExcluding db h p ↔
      ∃ r ∈ db, r.path = q ∧ r.hash = h ∧ r.path ≠ p := by
  unfold pathsWithHashExcluding
  rw [List.mem_map]
  constructor
  · rintro ⟨r, hr, rfl⟩
    have := List.mem_filter.mp hr
    rcases this with ⟨hmem, hpred⟩
    simp only [Bool.and_eq_true, beq_iff_eq, bne_iff_ne] at hpred
    exact ⟨r, hmem, rfl, hpred.1, hpred.2⟩
  · rintro ⟨r, hr, rfl, hh, hne⟩
    exact ⟨r, List.mem_filter.mpr ⟨hr, by simp [hh, bne_iff_ne, hne]⟩, rfl⟩

/-- Shape of one reconciliation step: path seen this run. -/
theorem reconcileStep_skip_seen {clean : Bool} {ex2 : String → Bool} {seen : List String}
    {st : RecSt} {e : String × String} (h1 : seen.contains e.1 = true) :
    reconcileStep clean ex2 seen st e = st := by
  simp only [reconcileStep, h1]
  simp

/-- Shape of one reconciliation step: path still exists on disk. -/
theorem reconcileStep_skip_exists {clean : Bool} {ex2 : String → Bool} {seen : List String}
    {st : RecSt} {e : String × String} (h1 : seen.contains e.1 = false)
    (h2 : ex2 e.1 = true) :
    reconcileStep clean ex2 seen st e = st := by
  simp only [reconcileStep, h1, h2]
  simp

/-- Shape of one reconciliation step: moved (same hash elsewhere on disk). -/
theorem reconcileStep_moved {clean : Bool} {ex2 : String → Bool} {seen : List String}
    {st : RecSt} {e : String × String} (h1 : seen.contains e.1 = false)
    (h2 : ex2 e.1 = false)
    (h3 : (pathsWithHashExcluding st.db e.2 e.1).any ex2 = true) :
    reconcileStep clean ex2 seen st e =
      { st with db := deleteByPath st.db e.1
                removed_moved := st.removed_moved + 1
                calls := st.calls ++ [DbCall.exec (DBOp.del e.1)] } := by
  simp only [reconcileStep, h1, h2, h3]
  simp

/-- Shape of one reconciliation step: missing and pruned (`--clean`). -/
theorem reconcileStep_missing_clean {ex2 : String → Bool} {seen : List String}
    {st : RecSt} {e : String × String} (h1 : seen.contains e.1 = false)
    (h2 : ex2 e.1 = false)
    (h3 : (pathsWithHashExcluding st.db e.2 e.1).any ex2 = false) :
    reconcileStep true ex2 seen st e =
      { st with db := deleteByPath st.db e.1
                removed_missing := st.removed_missing + 1
                calls := st.calls ++ [DbCall.exec (DBOp.del e.1)] } := by
  simp only [reconcileStep, h1, h2, h3]
  simp

/-- Shape of one reconciliation step: missing, retained and warned. -/
theorem reconcileStep_missing_warn {ex2 : String → Bool} {seen : List String}
    {st : RecSt} {e : String × String} (h1 : seen.contains e.1 = false)
    (h2 : ex2 e.1 = false)
    (h3 : (pathsWithHashExcluding st.db e.2 e.1).any ex2 = false) :
    reconcileStep false ex2 seen st e = { st with missing := st.missing ++ [e.1] } := by
  simp only [reconcileStep, h1, h2, h3]
  simp

theorem reconcileStep_db_sub {clean : Bool} {ex2 : String → Bool} {seen : List String}
    {st : RecSt} {e : String × String} {x : FileRecord}
    (hx : x ∈ (reconcileStep clean ex2 seen st e).db) : x ∈ st.db := by
  by_cases h1 : seen.contains e.1 = true
  · rwa [reconcileStep_skip_seen h1] at hx
  · rw [Bool.not_eq_true] at h1
    by_cases h2 : ex2 e.1 = true
    · rwa [reconcileStep_skip_exists h1 h2] at hx
    · rw [Bool.not_eq_true] at h2
      by_cases h3 : (pathsWithHashExcluding st.db e.2 e.1).any ex2 = true
      · rw [reconcileStep_moved h1 h2 h3] at hx
        exact deleteByPath_subset hx
      · rw [Bool.not_eq_true] at h3
        cases clean
        · rwa [reconcileStep_missing_warn h1 h2 h3] at hx
        · rw [reconcileStep_missing_clean h1 h2 h3] at hx
          exact deleteByPath_subset hx

theorem recon_append {clean : Bool} {ex2 : String → Bool} {seen : List String}
    {st : RecSt} {l1 l2 : List (String × String)} :
    reconcile clean ex2 seen st (l1 ++ l2)
      = reconcile clean ex2 seen (reconcile clean ex2 seen st l1) l2 :=
  List.foldl_append _ _ _ _

theorem recon_db_sub {clean : Bool} {ex2 : String → Bool} {seen : List String}
    {es : List (String × String)} (st : RecSt) {x : FileRecord}
    (hx : x ∈ (reconcile clean ex2 seen st es).db) : x ∈ st.db := by
  induction es generalizing st with
  | nil => exact hx
  | cons e es' ih => exact reconcileStep_db_sub (ih (reconcileStep clean ex2 seen st e) hx)

theorem reconcileStep_filterPath_seen {clean : Bool} {ex2 : String → Bool}
    {seen : List String} {st : RecSt} {e : String × String} {p : String}
    (hp : seen.contains p = true) :
    (reconcileStep clean ex2 seen st e).db.filter (fun x => x.path == p)
      = st.db.filter (fun x => x.path == p) := by
  by_cases h1 : seen.contains e.1 = true
  · rw [reconcileStep_skip_seen h1]
  · rw [Bool.not_eq_true] at h1
    have hne : e.1 ≠ p := fun h => by rw [h, hp] at h1; cases h1
    by_cases h2 : ex2 e.1 = true
    · rw [reconcileStep_skip_exists h1 h2]
    · rw [Bool.not_eq_true] at h2
      by_cases h3 : (pathsWithHashExcluding st.db e.2 e.1).any ex2 = true
      · rw [reconcileStep_moved h1 h2 h3]
        exact filterPath_deleteByPath_ne hne
      · rw [Bool.not_eq_true] at h3
        cases clean
        · rw [reconcileStep_missing_warn h1 h2 h3]
        · rw [reconcileStep_missing_clean h1 h2 h3]
          exact filterPath_deleteByPath_ne hne

theorem recon_filterPath_seen (clean : Bool) (ex2 : String → Bool) {seen : List String}
    (st : RecSt) (es : List (String × String)) {p : String}
    (hp : seen.contains p = true) :
    (reconcile clean ex2 seen st es).db.filter (fun x => x.path == p)
      = st.db.filter (fun x => x.path == p) := by
  induction es generalizing st with
  | nil => rfl
  | cons e es' ih =>
    exact (ih (reconcileStep clean ex2 seen st e)).trans
      (reconcileStep_filterPath_seen hp)

theorem recon_cons {clean : Bool} {ex2 : String → Bool} {seen : List String}
    {st : RecSt} {e : String × String} {es : List (String × String)} :
    reconcile clean ex2 seen st (e :: es)
      = reconcile clean ex2 seen (reconcileStep clean ex2 seen st e) es := rfl

theorem recon_missing_spec (clean : Bool) (ex2 : String → Bool) (seen : List String)
    (st : RecSt) (es : List (String × String)) :
    ∃ l, (reconcile clean ex2 seen st es).missing = st.missing ++ l ∧
      ∀ p ∈ l, seen.contains p = false := by
  induction es generalizing st with
  | nil => exact ⟨[], by simp [reconcile], by simp⟩
  | cons e es' ih =>
    rcases ih (reconcileStep clean ex2 seen st e) with ⟨l, hl, hseen⟩
    rw [recon_cons]
    by_cases h1 : seen.contains e.1 = true
    · rw [reconcileStep_skip_seen h1] at hl ⊢
      exact ⟨l, hl, hseen⟩
    · rw [Bool.not_eq_true] at h1
      by_cases h2 : ex2 e.1 = true
      · rw [reconcileStep_skip_exists h1 h2] at hl ⊢
        exact ⟨l, hl, hseen⟩
      · rw [Bool.not_eq_true] at h2
        by_cases h3 : (pathsWithHashExcluding st.db e.2 e.1).any ex2 = true
        · rw [reconcileStep_moved h1 h2 h3] at hl ⊢
          exact ⟨l, by simpa using hl, hseen⟩
        · rw [Bool.not_eq_true] at h3
          cases clean
          · rw [reconcileStep_missing_warn h1 h2 h3] at hl ⊢
            refine ⟨e.1 :: l, ?_, ?_⟩
            · simpa using hl
            · intro p hp
              rcases List.mem_cons.mp hp with rfl | hp
              · exact h1
              · exact hseen p hp
          · rw [reconcileStep_missing_clean h1 h2 h3] at hl ⊢
            exact ⟨l, by simpa using hl, hseen⟩

theorem recon_removed_missing_le (clean : Bool) (ex2 : String → Bool) (seen : List String)
    (st : RecSt) (es : List (String × String)) :
    st.removed_missing ≤ (reconcile clean ex2 seen st es).removed_missing := by
  induction es generalizing st with
  | nil => exact le_refl _
  | cons e es' ih =>
    rw [recon_cons]
    refine le_trans ?_ (ih (reconcileStep clean ex2 seen st e))
    by_cases h1 : seen.contains e.1 = true
    · rw [reconcileStep_skip_seen h1]
    · rw [Bool.not_eq_true] at h1
      by_cases h2 : ex2 e.1 = true
      · rw [reconcileStep_skip_exists h1 h2]
      · rw [Bool.not_eq_true] at h2
        by_cases h3 : (pathsWithHashExcluding st.db e.2 e.1).any ex2 = true
        · rw [reconcileStep_moved h1 h2 h3]
        · rw [Bool.not_eq_true] at h3
          cases clean
          · rw [reconcileStep_missing_warn h1 h2 h3]
          · rw [reconcileStep_missing_clean h1 h2 h3]
            exact Nat.le_succ _

/-! ## Stability of retained stale entries (for idempotence) -/

/-- The record's path was neither walked nor still on disk. -/
def badPath (seen : List String) (ex2 : String → Bool) (p : String) : Prop :=
  seen.contains p = false ∧ ex2 p = false

/-- No other row with the same hash names a path that exists on disk:
the moved-check of pass 2 comes out negative for this `(path, hash)` pair. -/
def safePair (ex2 : String → Bool) (db : DB) (e : String × String) : Prop :=
  ∀ r' ∈ db, r'.hash = e.2 → r'.path ≠ e.1 → ex2 r'.path = false

theorem safePair_mono {ex2 : String → Bool} {db db' : DB} {e : String × String}
    (hsub : ∀ x ∈ db', x ∈ db) (h : safePair ex2 db e) : safePair ex2 db' e :=
  fun r' hr' => h r' (hsub r' hr')

theorem safePair_any_false {ex2 : String → Bool} {db : DB} {e : String × String}
    (h : safePair ex2 db e) :
    (pathsWithHashExcluding db e.2 e.1).any ex2 = false := by
  rw [List.any_eq_false]
  intro q hq
  rcases mem_pathsWithHashExcluding.mp hq with ⟨r', hr', rfl, hh, hne⟩
  simp [h r' hr' hh hne]

theorem any_false_safePair {ex2 : String → Bool} {db : DB} {e : String × String}
    (h : (pathsWithHashExcluding db e.2 e.1).any ex2 = false) : safePair ex2 db e := by
  rw [List.any_eq_false] at h
  intro r' hr' hh hne
  have := h r'.path (mem_pathsWithHashExcluding.mpr ⟨r', hr', rfl, hh, hne⟩)
  simpa using this

/-- Every record that survives pass 2 even though its path is gone was
retained through the warn branch: `clean` is off and its moved-check is
(and stays) negative. -/
theorem recon_good (clean : Bool) (ex2 : String → Bool) (seen : List String) :
    ∀ (es : List (String × String)) (st : RecSt),
    (∀ r ∈ st.db, badPath seen ex2 r.path →
      ((r.path, r.hash) ∈ es ∨ (clean = false ∧ safePair ex2 st.db (r.path, r.hash)))) →
    ∀ r ∈ (reconcile clean ex2 seen st es).db, badPath seen ex2 r.path →
      clean = false ∧ safePair ex2 (reconcile clean ex2 seen st es).db (r.path, r.hash)
  | [], st, hinv, r, hr, hbad => by
    rcases hinv r hr hbad with h | h
    · cases h
    · exact ⟨h.1, h.2⟩
  | e :: es', st, hinv, r, hr, hbad => by
    refine recon_good clean ex2 seen es' (reconcileStep clean ex2 seen st e) ?_ r hr hbad
    intro x hx hbadx
    have hxst : x ∈ st.db := reconcileStep_db_sub hx
    rcases hinv x hxst hbadx with hmem | hgood
    · rcases List.mem_cons.mp hmem with hpe | hmem'
      · -- this very entry was just processed; analyse the step
        have h1 : seen.contains e.1 = false := by rw [← hpe]; exact hbadx.1
        have h2 : ex2 e.1 = false := by rw [← hpe]; exact hbadx.2
        by_cases h3 : (pathsWithHashExcluding st.db e.2 e.1).any ex2 = true
        · exfalso
          rw [reconcileStep_moved h1 h2 h3] at hx
          have := (mem_deleteByPath.mp hx).2
          apply this
          rw [← hpe]
        · rw [Bool.not_eq_true] at h3
          cases hcl : clean
          · rw [hcl] at hx
            rw [reconcileStep_missing_warn h1 h2 h3] at hx
            refine Or.inr ⟨rfl, ?_⟩
            rw [reconcileStep_missing_warn h1 h2 h3]
            show safePair ex2 st.db _
            rw [hpe]
            exact any_false_safePair h3
          · exfalso
            rw [hcl] at hx
            rw [reconcileStep_missing_clean h1 h2 h3] at hx
            have := (mem_deleteByPath.mp hx).2
            apply this
            rw [← hpe]
      · exact Or.inl hmem'
    · exact Or.inr ⟨hgood.1, safePair_mono (fun y hy => reconcileStep_db_sub hy) hgood.2⟩

/-- If every stale entry whose path is gone already has a negative
moved-check and `clean` is off, pass 2 does not touch the table. -/
theorem recon_id {clean : Bool} {ex2 : String → Bool} {seen : List String} :
    ∀ (es : List (String × String)) (st : RecSt),
    (∀ e ∈ es, badPath seen ex2 e.1 → (clean = false ∧ safePair ex2 st.db e)) →
    (reconcile clean ex2 seen st es).db = st.db
  | [], st, _ => rfl
  | e :: es', st, hinv => by
    by_cases h1 : seen.contains e.1 = true
    · rw [show reconcile clean ex2 seen st (e :: es')
          = reconcile clean ex2 seen (reconcileStep clean ex2 seen st e) es' from rfl,
        reconcileStep_skip_seen h1]
      exact recon_id es' st (fun e' he' => hinv e' (List.mem_cons_of_mem _ he'))
    · rw [Bool.not_eq_true] at h1
      by_cases h2 : ex2 e.1 = true
      · rw [show reconcile clean ex2 seen st (e :: es')
            = reconcile clean ex2 seen (reconcileStep clean ex2 seen st e) es' from rfl,
          reconcileStep_skip_exists h1 h2]
        exact recon_id es' st (fun e' he' => hinv e' (List.mem_cons_of_mem _ he'))
      · rw [Bool.not_eq_true] at h2
        rcases hinv e (List.mem_cons_self _ _) ⟨h1, h2⟩ with ⟨hcl, hsafe⟩
        have h3 := safePair_any_false hsafe
        subst hcl
        rw [show reconcile false ex2 seen st (e :: es')
            = reconcile false ex2 seen (reconcileStep false ex2 seen st e) es' from rfl,
          reconcileStep_missing_warn h1 h2 h3]
        exact recon_id es' _ (fun e' he' => hinv e' (List.mem_cons_of_mem _ he'))

theorem contains_true_iff {l : List String} {x : String} :
    l.contains x = true ↔ x ∈ l :=
  ⟨List.mem_of_elem_eq_true, List.elem_eq_true_of_mem⟩

theorem statFS_isSome {fs : FS} {p : String} :
    (statFS fs p).isSome = (lookupFS fs p).isSome := by
  unfold statFS; rw [Option.isSome_map']

/-- C2: running `sync` twice over the same unchanged tree makes the second run
compute zero hashes (every included file takes the size+mtime cache-hit path)
and leave the table exactly as the first run left it. -/
theorem sync_idempotent (exts : List String) (clean : Bool) (fs : FS) (db0 : DB) :
    (cmd_sync exts clean fs (cmd_sync exts clean fs db0).db).hashes = 0 ∧
    (cmd_sync exts clean fs (cmd_sync exts clean fs db0).db).db
      = (cmd_sync exts clean fs db0).db := by
  have hsw := walkOf_static fs
  have hpres := walkOf_present fs
  set st1 := pass1 exts ⟨db0, [], [], 0, []⟩ (walkOf fs) with hst1
  set rst1 := reconcile clean (existsFS fs) st1.seen ⟨st1.db, [], 0, 0, st1.calls⟩
      (st1.db.map (fun r => (r.path, r.hash))) with hrst1
  have hr1db : (cmd_sync exts clean fs db0).db = rst1.db := rfl
  have hcr1 : ∀ w ∈ walkOf fs, includedExt exts w.path = true →
      cacheReady fs st1.db w.path :=
    pass1_cacheReady_all hsw hpres
  have hseen1 : ∀ w ∈ walkOf fs, includedExt exts w.path = true → w.path ∈ st1.seen := by
    intro w hw hinc
    rw [hst1, pass1_seen]
    refine mem_seenFold.mpr (Or.inr ⟨w, hw, hinc, ?_, rfl⟩)
    rw [(hsw w hw).1, statFS_isSome]
    exact hpres w hw
  have hcr2 : ∀ w ∈ walkOf fs, includedExt exts w.path = true →
      cacheReady fs rst1.db w.path := by
    intro w hw hinc
    rcases hcr1 w hw hinc with ⟨fi, hfi, hsome⟩
    refine ⟨fi, hfi, ?_⟩
    rw [lookupExact_isSome_iff] at hsome ⊢
    rcases hsome with ⟨x, hx, hx1, hx2, hx3⟩
    refine ⟨x, ?_, hx1, hx2, hx3⟩
    have hcont : st1.seen.contains w.path = true :=
      contains_true_iff.mpr (hseen1 w hw hinc)
    have hfil := recon_filterPath_seen clean (existsFS fs)
      ⟨st1.db, [], 0, 0, st1.calls⟩ (st1.db.map (fun r => (r.path, r.hash))) hcont
    have hxin : x ∈ st1.db.filter (fun y => y.path == w.path) :=
      List.mem_filter.mpr ⟨hx, by simp [hx1]⟩
    have hxin2 : x ∈ rst1.db.filter (fun y => y.path == w.path) := by
      rw [hrst1]
      rw [hfil]
      exact hxin
    exact (List.mem_filter.mp hxin2).1
  set st2 := pass1 exts ⟨rst1.db, [], [], 0, []⟩ (walkOf fs) with hst2
  have hid : st2.db = rst1.db ∧ st2.hashes = 0 :=
    pass1_id_of_cacheReady ⟨rst1.db, [], [], 0, []⟩ hsw hcr2
  have hseen12 : st2.seen = st1.seen := by
    rw [hst1, hst2, pass1_seen, pass1_seen]
  have hgood := recon_good clean (existsFS fs) st1.seen
    (st1.db.map (fun r => (r.path, r.hash))) ⟨st1.db, [], 0, 0, st1.calls⟩
    (fun r hr _ => Or.inl (List.mem_map.mpr ⟨r, hr, rfl⟩))
  have hr2db : (cmd_sync exts clean fs (cmd_sync exts clean fs db0).db).db
      = (reconcile clean (existsFS fs) st2.seen ⟨st2.db, [], 0, 0, st2.calls⟩
          (st2.db.map (fun r => (r.path, r.hash)))).db := rfl
  have hrec2 : (reconcile clean (existsFS fs) st2.seen ⟨st2.db, [], 0, 0, st2.calls⟩
      (st2.db.map (fun r => (r.path, r.hash)))).db = rst1.db := by
    rw [hid.1, hseen12]
    refine recon_id _ _ ?_
    intro e he hbad
    rcases List.mem_map.mp he with ⟨r, hr, rfl⟩
    exact hgood r hr hbad
  constructor
  · have : (cmd_sync exts clean fs (cmd_sync exts clean fs db0).db).hashes
        = st2.hashes := rfl
    rw [this, hid.2]
  · rw [hr2db, hrec2, hr1db]

/-! ## Deduplicator lemmas -/

theorem mem_dedupCandidates {db : DB} {token p : String} :
    p ∈ dedupCandidates db token ↔
      ∃ r ∈ db, r.path = p ∧ strHasSub p token = true ∧
        ∃ r' ∈ db, r'.hash = r.hash ∧ strHasSub r'.path token = false := by
  unfold dedupCandidates
  rw [List.mem_map]
  constructor
  · rintro ⟨r, hr, rfl⟩
    rcases List.mem_filter.mp hr with ⟨hmem, hpred⟩
    rw [Bool.and_eq_true] at hpred
    have hout := contains_true_iff.mp hpred.2
    rcases List.mem_map.mp hout with ⟨r', hr', hh⟩
    rcases List.mem_filter.mp hr' with ⟨hm', hp'⟩
    exact ⟨r, hmem, rfl, hpred.1, r', hm', hh, by simpa using hp'⟩
  · rintro ⟨r, hr, rfl, hsub, r', hr', hh, hout⟩
    refine ⟨r, List.mem_filter.mpr ⟨hr, ?_⟩, rfl⟩
    rw [Bool.and_eq_true]
    refine ⟨hsub, contains_true_iff.mpr ?_⟩
    exact List.mem_map.mpr ⟨r', List.mem_filter.mpr ⟨hr', by simp [hout]⟩, hh⟩

theorem dedupCandidates_nodup {db : DB} (token : String) (hnd : pathsNodup db) :
    (dedupCandidates db token).Nodup := by
  unfold pathsNodup at hnd
  unfold dedupCandidates
  exact ((List.filter_sublist db).map (·.path)).nodup hnd

/-- Shape of one deletion-loop step: `unlink` succeeded. -/
theorem dedupStep_ok {allow : String → Bool} {st : DedupSt} {p : String}
    (hcond : (existsFS st.fs p && allow p) = true) :
    dedupStep allow st p =
      ⟨deleteByPath st.db p, removeFile st.fs p, st.errors, st.deleted + 1⟩ := by
  unfold dedupStep
  rw [if_pos hcond]

/-- Shape of one deletion-loop step: `unlink` raised; the row is kept. -/
theorem dedupStep_fail {allow : String → Bool} {st : DedupSt} {p : String}
    (hcond : (existsFS st.fs p && allow p) = false) :
    dedupStep allow st p = { st with errors := st.errors ++ [p] } := by
  unfold dedupStep
  rw [if_neg (by simp [hcond])]

theorem dedupStep_db_sub {allow : String → Bool} {st : DedupSt} {p : String}
    {x : FileRecord} (hx : x ∈ (dedupStep allow st p).db) : x ∈ st.db := by
  unfold dedupStep at hx
  split at hx
  · exact deleteByPath_subset hx
  · exact hx

theorem dedupStep_exists_mono {allow : String → Bool} {st : DedupSt} {p q : String}
    (h : existsFS (dedupStep allow st p).fs q = true) : existsFS st.fs q = true := by
  unfold dedupStep at h
  split at h
  · exact existsFS_removeFile h
  · exact h

theorem dedupFold_exists_mono {allow : String → Bool} {cands : List String}
    (st : DedupSt) {q : String}
    (h : existsFS (cands.foldl (dedupStep allow) st).fs q = true) :
    existsFS st.fs q = true := by
  induction cands generalizing st with
  | nil => exact h
  | cons p cs ih => exact dedupStep_exists_mono (ih (dedupStep allow st p) h)

/-- A record can leave the table during the deletion loop only because its
own path was unlinked successfully, after which the file is gone for good. -/
theorem dedupFold_removed {allow : String → Bool} {cands : List String} :
    ∀ (st : DedupSt) {x : FileRecord}, x ∈ st.db →
    x ∉ (cands.foldl (dedupStep allow) st).db →
    existsFS st.fs x.path = true ∧ allow x.path = true ∧
      existsFS (cands.foldl (dedupStep allow) st).fs x.path = false := by
  induction cands with
  | nil => intro st x hx hnx; exact absurd hx hnx
  | cons p cs ih =>
    intro st x hx hnx
    by_cases hmem : x ∈ (dedupStep allow st p).db
    · rcases ih _ hmem hnx with ⟨h1, h2, h3⟩
      exact ⟨dedupStep_exists_mono h1, h2, h3⟩
    · -- x was removed by this very step
      by_cases hcond : (existsFS st.fs p && allow p) = true
      · rw [dedupStep_ok hcond] at hmem
        simp only at hmem
        have hxp : x.path = p := by
          by_contra hne
          exact hmem (mem_deleteByPath.mpr ⟨hx, hne⟩)
        have hcond' := hcond
        rw [Bool.and_eq_true] at hcond'
        refine ⟨hxp ▸ hcond'.1, hxp ▸ hcond'.2, ?_⟩
        have hgone : existsFS (dedupStep allow st p).fs x.path = false := by
          rw [dedupStep_ok hcond]
          simp only
          rw [hxp]
          exact existsFS_removeFile_self
        rw [Bool.eq_false_iff]
        intro hs
        rw [Bool.eq_false_iff] at hgone
        exact hgone (dedupFold_exists_mono (dedupStep allow st p) hs)
      · rw [Bool.not_eq_true] at hcond
        rw [dedupStep_fail hcond] at hmem
        exact absurd hx hmem

theorem dedupStep_filterPath_ne {allow : String → Bool} {st : DedupSt} {p q : String}
    (hne : p ≠ q) :
    (dedupStep allow st p).db.filter (fun x => x.path == q)
      = st.db.filter (fun x => x.path == q) := by
  unfold dedupStep
  split
  · exact filterPath_deleteByPath_ne hne
  · rfl

theorem dedupFold_filterPath_ne {allow : String → Bool} {cands : List String}
    (st : DedupSt) {q : String} (h : ∀ p ∈ cands, p ≠ q) :
    (cands.foldl (dedupStep allow) st).db.filter (fun x => x.path == q)
      = st.db.filter (fun x => x.path == q) := by
  induction cands generalizing st with
  | nil => rfl
  | cons p cs ih =>
    exact (ih (dedupStep allow st p)
        (fun p' hp' => h p' (List.mem_cons_of_mem _ hp'))).trans
      (dedupStep_filterPath_ne (h p (List.mem_cons_self _ _)))

theorem dedupFold_exists_ne {allow : String → Bool} {cands : List String}
    (st : DedupSt) {q : String} (h : ∀ p ∈ cands, p ≠ q) :
    existsFS (cands.foldl (dedupStep allow) st).fs q = existsFS st.fs q := by
  induction cands generalizing st with
  | nil => rfl
  | cons p cs ih =>
    refine (ih (dedupStep allow st p)
        (fun p' hp' => h p' (List.mem_cons_of_mem _ hp'))).trans ?_
    unfold dedupStep
    split
    · exact existsFS_removeFile_ne (fun hqp => h p (List.mem_cons_self _ _) hqp.symm)
    · rfl

theorem dedupFold_errors_spec (allow : String → Bool) (cands : List String)
    (st : DedupSt) :
    ∃ l, (cands.foldl (dedupStep allow) st).errors = st.errors ++ l := by
  induction cands generalizing st with
  | nil => exact ⟨[], by simp⟩
  | cons p cs ih =>
    rcases ih (dedupStep allow st p) with ⟨l, hl⟩
    rw [List.foldl_cons]
    by_cases hcond : (existsFS st.fs p && allow p) = true
    · rw [dedupStep_ok hcond] at hl ⊢
      exact ⟨l, by simpa using hl⟩
    · rw [Bool.not_eq_true] at hcond
      rw [dedupStep_fail hcond] at hl ⊢
      exact ⟨p :: l, by simpa using hl⟩

theorem dedupFold_count (allow : String → Bool) (cands : List String) (st : DedupSt) :
    (cands.foldl (dedupStep allow) st).deleted
        + (cands.foldl (dedupStep allow) st).errors.length
      = st.deleted + st.errors.length + cands.length := by
  induction cands generalizing st with
  | nil => simp
  | cons p cs ih =>
    rw [List.foldl_cons]
    by_cases hcond : (existsFS st.fs p && allow p) = true
    · rw [dedupStep_ok hcond, ih]
      simp
      omega
    · rw [Bool.not_eq_true] at hcond
      rw [dedupStep_fail hcond, ih]
      simp
      omega

/-! ## Claim theorems: deduplicator -/

/-- C6: a row is selected for deletion iff its path contains the unorganized
token as a substring and its hash also belongs to some row whose path does
not contain the token; in particular, for identical-content files at
`/lib/Unorganized/x.epub` and `/lib/Fiction/x.epub` plus a unique-content
`/lib/Unorganized/y.epub`, exactly the first is deleted (from disk and from
the table) and the other two are untouched. -/
theorem dedup_candidate_selection :
    (∀ (db : DB) (token p : String),
      p ∈ dedupCandidates db token ↔
        ∃ r ∈ db, r.path = p ∧ strHasSub p token = true ∧
          ∃ r' ∈ db, r'.hash = r.hash ∧ strHasSub r'.path token = false) ∧
    (let db3 : DB := [⟨"/lib/Unorganized/x.epub", "F", 1, 1, ".epub"⟩,
        ⟨"/lib/Fiction/x.epub", "F", 1, 1, ".epub"⟩,
        ⟨"/lib/Unorganized/y.epub", "G", 1, 1, ".epub"⟩]
     let fs3 : FS := [("/lib/Unorganized/x.epub", ⟨1, 1, "F"⟩),
        ("/lib/Fiction/x.epub", ⟨1, 1, "F"⟩),
        ("/lib/Unorganized/y.epub", ⟨1, 1, "G"⟩)]
     let r := cmd_dedup db3 "Unorganized" false fs3 (fun _ => true)
     dedupCandidates db3 "Unorganized" = ["/lib/Unorganized/x.epub"] ∧
     r.db = [⟨"/lib/Fiction/x.epub", "F", 1, 1, ".epub"⟩,
             ⟨"/lib/Unorganized/y.epub", "G", 1, 1, ".epub"⟩] ∧
     r.fs = [("/lib/Fiction/x.epub", ⟨1, 1, "F"⟩),
             ("/lib/Unorganized/y.epub", ⟨1, 1, "G"⟩)] ∧
     r.deleted = 1) :=
  ⟨fun _ _ _ => mem_dedupCandidates, by decide⟩

/-- C6 witness: the characterization applied at a concrete table, path and
token, together with that table's concrete candidate membership. -/
theorem dedup_candidate_selection_witness :
    "/lib/Unorganized/x.epub" ∈
        dedupCandidates [⟨"/lib/Unorganized/x.epub", "F", 1, 1, ".epub"⟩,
          ⟨"/lib/Fiction/x.epub", "F", 1, 1, ".epub"⟩] "Unorganized" ↔
      ∃ r ∈ ([⟨"/lib/Unorganized/x.epub", "F", 1, 1, ".epub"⟩,
          ⟨"/lib/Fiction/x.epub", "F", 1, 1, ".epub"⟩] : DB),
        r.path = "/lib/Unorganized/x.epub" ∧
        strHasSub "/lib/Unorganized/x.epub" "Unorganized" = true ∧
        ∃ r' ∈ ([⟨"/lib/Unorganized/x.epub", "F", 1, 1, ".epub"⟩,
            ⟨"/lib/Fiction/x.epub", "F", 1, 1, ".epub"⟩] : DB),
          r'.hash = r.hash ∧ strHasSub r'.path "Unorganized" = false :=
  dedup_candidate_selection.1 _ "Unorganized" "/lib/Unorganized/x.epub"

/-- C7: rows leave the table only when their own file was successfully
unlinked first; a failed unlink reports the path on stderr, keeps its rows,
and does not stop the loop; the final report counts successes out of the
total candidate count. -/
theorem dedup_partial_failure (db : DB) (token : String) (fs : FS)
    (allow : String → Bool) (hnd : pathsNodup db) :
    (∀ x ∈ db, x ∉ (cmd_dedup db token false fs allow).db →
        existsFS fs x.path = true ∧ allow x.path = true ∧
        existsFS (cmd_dedup db token false fs allow).fs x.path = false) ∧
    (∀ p ∈ dedupCandidates db token, ¬(existsFS fs p = true ∧ allow p = true) →
        (∀ x ∈ db, x.path = p → x ∈ (cmd_dedup db token false fs allow).db) ∧
        p ∈ (cmd_dedup db token false fs allow).errors) ∧
    (cmd_dedup db token false fs allow).deleted
        + (cmd_dedup db token false fs allow).errors.length
      = (cmd_dedup db token false fs allow).total ∧
    (cmd_dedup db token false fs allow).total = (dedupCandidates db token).length := by
  by_cases hz : (dedupCandidates db token).length = 0
  · have hnil : dedupCandidates db token = [] := List.length_eq_zero.mp hz
    have hr : cmd_dedup db token false fs allow = ⟨db, fs, [], [], 0, 0⟩ := by
      unfold cmd_dedup
      rw [hnil]
      rfl
    rw [hr]
    refine ⟨?_, ?_, rfl, by rw [hnil]; rfl⟩
    · intro x hx hnx
      exact absurd hx hnx
    · intro p hp
      rw [hnil] at hp
      cases hp
  · have hr : cmd_dedup db token false fs allow =
        (let st := (dedupCandidates db token).foldl (dedupStep allow) ⟨db, fs, [], 0⟩
         ⟨st.db, st.fs, [], st.errors, st.deleted, (dedupCandidates db token).length⟩) := by
      unfold cmd_dedup
      rw [if_neg hz]
      rfl
    rw [hr]
    simp only
    set stf := (dedupCandidates db token).foldl (dedupStep allow) ⟨db, fs, [], 0⟩ with hstf
    refine ⟨?_, ?_, ?_, by trivial⟩
    · intro x hx hnx
      exact dedupFold_removed ⟨db, fs, [], 0⟩ hx hnx
    · intro p hp hfail
      have hcnd := dedupCandidates_nodup token hnd
      rcases List.append_of_mem hp with ⟨l1, l2, hsplit⟩
      have hnd' : (l1 ++ p :: l2).Nodup := hsplit ▸ hcnd
      have hpl1 : ∀ q ∈ l1, q ≠ p := by
        intro q hq hqp
        subst hqp
        exact (List.disjoint_of_nodup_append hnd') hq (List.mem_cons_self _ _)
      have hpl2 : ∀ q ∈ l2, q ≠ p := by
        intro q hq hqp
        subst hqp
        have := List.Nodup.of_append_right hnd'
        exact (List.nodup_cons.mp this).1 hq
      have hfold : stf = l2.foldl (dedupStep allow)
          (dedupStep allow (l1.foldl (dedupStep allow) ⟨db, fs, [], 0⟩) p) := by
        rw [hstf, hsplit, List.foldl_append, List.foldl_cons]
      set mid := l1.foldl (dedupStep allow) ⟨db, fs, [], 0⟩ with hmid
      have hmidfs : existsFS mid.fs p = existsFS fs p := dedupFold_exists_ne _ hpl1
      have hcondf : (existsFS mid.fs p && allow p) = false := by
        rw [hmidfs]
        by_cases hef : existsFS fs p = true
        · by_cases hal : allow p = true
          · exact absurd ⟨hef, hal⟩ hfail
          · rw [Bool.not_eq_true] at hal
            simp [hal]
        · rw [Bool.not_eq_true] at hef
          simp [hef]
      have hstep : dedupStep allow mid p = { mid with errors := mid.errors ++ [p] } :=
        dedupStep_fail hcondf
      constructor
      · intro x hx hxp
        have hx1 : x ∈ db.filter (fun y => y.path == p) :=
          List.mem_filter.mpr ⟨hx, by simp [hxp]⟩
        have hkeep : stf.db.filter (fun y => y.path == p)
            = db.filter (fun y => y.path == p) := by
          rw [hfold, hstep]
          rw [dedupFold_filterPath_ne _ hpl2]
          simp only
          exact dedupFold_filterPath_ne _ hpl1
        have : x ∈ stf.db.filter (fun y => y.path == p) := by
          rw [hkeep]; exact hx1
        exact (List.mem_filter.mp this).1
      · rcases dedupFold_errors_spec allow l2 (dedupStep allow mid p) with ⟨l, hl⟩
        rw [hfold, hl, hstep]
        simp
    · rw [hstf]
      have := dedupFold_count allow (dedupCandidates db token) ⟨db, fs, [], 0⟩
      simpa using this

/-- C7 witness: a two-candidate run in which unlinking the first candidate is
denied: its rows survive, it is reported, the second candidate is still
deleted, and the report reads 1 of 2. -/
theorem dedup_partial_failure_witness :
    pathsNodup [⟨"/lib/Unorganized/x.epub", "F", 1, 1, ".epub"⟩,
      ⟨"/lib/Unorganized/z.epub", "F", 1, 1, ".epub"⟩,
      ⟨"/lib/Fiction/x.epub", "F", 1, 1, ".epub"⟩] ∧
    (∀ p ∈ dedupCandidates [⟨"/lib/Unorganized/x.epub", "F", 1, 1, ".epub"⟩,
        ⟨"/lib/Unorganized/z.epub", "F", 1, 1, ".epub"⟩,
        ⟨"/lib/Fiction/x.epub", "F", 1, 1, ".epub"⟩] "Unorganized",
      ¬(existsFS [("/lib/Unorganized/x.epub", ⟨1, 1, "F"⟩),
          ("/lib/Unorganized/z.epub", ⟨1, 1, "F"⟩),
          ("/lib/Fiction/x.epub", ⟨1, 1, "F"⟩)] p = true ∧
        (fun q => q != "/lib/Unorganized/x.epub") p = true) →
      (∀ x ∈ ([⟨"/lib/Unorganized/x.epub", "F", 1, 1, ".epub"⟩,
          ⟨"/lib/Unorganized/z.epub", "F", 1, 1, ".epub"⟩,
          ⟨"/lib/Fiction/x.epub", "F", 1, 1, ".epub"⟩] : DB), x.path = p →
        x ∈ (cmd_dedup [⟨"/lib/Unorganized/x.epub", "F", 1, 1, ".epub"⟩,
          ⟨"/lib/Unorganized/z.epub", "F", 1, 1, ".epub"⟩,
          ⟨"/lib/Fiction/x.epub", "F", 1, 1, ".epub"⟩] "Unorganized" false
          [("/lib/Unorganized/x.epub", ⟨1, 1, "F"⟩),
           ("/lib/Unorganized/z.epub", ⟨1, 1, "F"⟩),
           ("/lib/Fiction/x.epub", ⟨1, 1, "F"⟩)]
          (fun q => q != "/lib/Unorganized/x.epub")).db) ∧
      p ∈ (cmd_dedup [⟨"/lib/Unorganized/x.epub", "F", 1, 1, ".epub"⟩,
          ⟨"/lib/Unorganized/z.epub", "F", 1, 1, ".epub"⟩,
          ⟨"/lib/Fiction/x.epub", "F", 1, 1, ".epub"⟩] "Unorganized" false
          [("/lib/Unorganized/x.epub", ⟨1, 1, "F"⟩),
           ("/lib/Unorganized/z.epub", ⟨1, 1, "F"⟩),
           ("/lib/Fiction/x.epub", ⟨1, 1, "F"⟩)]
          (fun q => q != "/lib/Unorganized/x.epub")).errors) :=
  ⟨by decide,
    (dedup_partial_failure _ "Unorganized"
      [("/lib/Unorganized/x.epub", ⟨1, 1, "F"⟩),
       ("/lib/Unorganized/z.epub", ⟨1, 1, "F"⟩),
       ("/lib/Fiction/x.epub", ⟨1, 1, "F"⟩)]
      (fun q => q != "/lib/Unorganized/x.epub") (by decide)).2.1⟩

/-- C8: `dedup --dry-run` changes neither the filesystem nor the table,
reports nothing on stderr and deletes nothing; it prints exactly the
candidate list over which a destructive run would iterate, and a destructive
run with the same inputs accounts for every one of those candidates in its
`deleted / total` report. -/
theorem dedup_dry_run (db : DB) (token : String) (fs : FS) (allow : String → Bool) :
    (cmd_dedup db token true fs allow).db = db ∧
    (cmd_dedup db token true fs allow).fs = fs ∧
    (cmd_dedup db token true fs allow).errors = [] ∧
    (cmd_dedup db token true fs allow).deleted = 0 ∧
    (cmd_dedup db token true fs allow).printed = dedupCandidates db token ∧
    (cmd_dedup db token false fs allow).deleted
        + (cmd_dedup db token false fs allow).errors.length
      = (dedupCandidates db token).length := by
  by_cases hz : (dedupCandidates db token).length = 0
  · have hnil : dedupCandidates db token = [] := List.length_eq_zero.mp hz
    have hr : cmd_dedup db token true fs allow = ⟨db, fs, [], [], 0, 0⟩ := by
      unfold cmd_dedup
      rw [hnil]
      rfl
    have hr' : cmd_dedup db token false fs allow = ⟨db, fs, [], [], 0, 0⟩ := by
      unfold cmd_dedup
      rw [hnil]
      rfl
    rw [hr, hr', hnil]
    exact ⟨rfl, rfl, rfl, rfl, rfl, rfl⟩
  · have hr : cmd_dedup db token true fs allow =
        ⟨db, fs, dedupCandidates db token, [], 0, (dedupCandidates db token).length⟩ := by
      unfold cmd_dedup
      rw [if_neg hz]
      rfl
    have hr' : cmd_dedup db token false fs allow =
        (let st := (dedupCandidates db token).foldl (dedupStep allow) ⟨db, fs, [], 0⟩
         ⟨st.db, st.fs, [], st.errors, st.deleted, (dedupCandidates db token).length⟩) := by
      unfold cmd_dedup
      rw [if_neg hz]
      rfl
    rw [hr, hr']
    refine ⟨rfl, rfl, rfl, rfl, rfl, ?_⟩
    simp only
    have := dedupFold_count allow (dedupCandidates db token) ⟨db, fs, [], 0⟩
    simpa using this

/-- C9: the "verified elsewhere" evidence of dedup is read from the table
alone, never from the disk: the candidate list is the same for every disk
state, so when the sole outside row's file is already gone from disk, the
inside copy — the last on-disk copy of that content — is still deleted. -/
theorem dedup_index_only :
    (∀ (db : DB) (token : String) (fs fs' : FS) (allow allow' : String → Bool),
      (cmd_dedup db token true fs allow).printed
        = (cmd_dedup db token true fs' allow').printed) ∧
    (let dbS : DB := [⟨"/lib/Unorganized/x.epub", "F", 1, 1, ".epub"⟩,
        ⟨"/lib/Fiction/x.epub", "F", 1, 1, ".epub"⟩]
     let fsS : FS := [("/lib/Unorganized/x.epub", ⟨1, 1, "F"⟩)]
     let r := cmd_dedup dbS "Unorganized" false fsS (fun _ => true)
     r.fs = [] ∧ r.db = [⟨"/lib/Fiction/x.epub", "F", 1, 1, ".epub"⟩] ∧
     r.deleted = 1) := by
  constructor
  · intro db token fs fs' allow allow'
    by_cases hz : (dedupCandidates db token).length = 0 <;>
      simp [cmd_dedup, hz]
  · decide

/-! ## Claim theorems: cache fast path and vanish races -/

theorem lookupExact_eq_some_iff {db : DB} {p : String} {sz : Nat} {mt : Int}
    {h : String} (hnd : pathsNodup db) :
    lookupExact db p sz mt = some h ↔
      ∃ r ∈ db, r.path = p ∧ r.size = sz ∧ r.mtime = mt ∧ r.hash = h := by
  constructor
  · intro hl
    unfold lookupExact at hl
    rcases Option.map_eq_some'.mp hl with ⟨r, hr, hh⟩
    have hmem := List.mem_of_find?_eq_some hr
    have hpred := List.find?_some hr
    simp only [Bool.and_eq_true, beq_iff_eq] at hpred
    exact ⟨r, hmem, hpred.1.1, hpred.1.2, hpred.2, hh⟩
  · rintro ⟨r, hr, h1, h2, h3, h4⟩
    rcases ho : lookupExact db p sz mt with _ | h'
    · exfalso
      have hs : (lookupExact db p sz mt).isSome :=
        lookupExact_isSome_iff.mpr ⟨r, hr, h1, h2, h3⟩
      rw [ho] at hs
      cases hs
    · unfold lookupExact at ho
      rcases Option.map_eq_some'.mp ho with ⟨r1, hr1, hh1⟩
      have hmem1 := List.mem_of_find?_eq_some hr1
      have hpred1 := List.find?_some hr1
      simp only [Bool.and_eq_true, beq_iff_eq] at hpred1
      have hrr : r1 = r :=
        List.inj_on_of_nodup_map hnd hmem1 hr (by rw [hpred1.1.1, h1])
      rw [← hh1, hrr, h4]

/-- C3: the `(path, size, mtime)` point lookup returns the cached hash iff
the stored size and mtime equal the current ones exactly, and on such a hit
`upsert_and_track` neither reads nor hashes the file nor rewrites its row —
it only marks the path seen and the hash present. -/
theorem cache_hit_fast_path (db : DB) (p : String) (sz : Nat) (mt : Int)
    (h : String) (hnd : pathsNodup db) :
    (lookupExact db p sz mt = some h ↔
      ∃ r ∈ db, r.path = p ∧ r.size = sz ∧ r.mtime = mt ∧ r.hash = h) ∧
    (∀ (st : SyncSt) (rr : Option String), lookupExact st.db p sz mt = some h →
      upsert_and_track st p (some (sz, mt)) rr =
        { st with seen := insertUniq st.seen p, present := insertUniq st.present h }) :=
  ⟨lookupExact_eq_some_iff hnd, fun _ _ hle => uat_cached hle⟩

/-- C3 witness: the fast path evaluated on a one-row table: the lookup hits
exactly at the stored size and mtime, and the hit leaves the table, the hash
count and the call trace untouched. -/
theorem cache_hit_fast_path_witness :
    pathsNodup [(⟨"/r/a.epub", "F", 7, 3, ".epub"⟩ : FileRecord)] ∧
    (lookupExact [⟨"/r/a.epub", "F", 7, 3, ".epub"⟩] "/r/a.epub" 7 3 = some "F" ↔
      ∃ r ∈ ([⟨"/r/a.epub", "F", 7, 3, ".epub"⟩] : DB),
        r.path = "/r/a.epub" ∧ r.size = 7 ∧ r.mtime = 3 ∧ r.hash = "F") ∧
    upsert_and_track ⟨[⟨"/r/a.epub", "F", 7, 3, ".epub"⟩], [], [], 0, []⟩
        "/r/a.epub" (some (7, 3)) none =
      ⟨[⟨"/r/a.epub", "F", 7, 3, ".epub"⟩], ["/r/a.epub"], ["F"], 0, []⟩ :=
  ⟨by decide,
    (cache_hit_fast_path [⟨"/r/a.epub", "F", 7, 3, ".epub"⟩] "/r/a.epub" 7 3 "F"
      (by decide)).1,
    by
      have := (cache_hit_fast_path [⟨"/r/a.epub", "F", 7, 3, ".epub"⟩] "/r/a.epub" 7 3 "F"
        (by decide)).2 ⟨[⟨"/r/a.epub", "F", 7, 3, ".epub"⟩], [], [], 0, []⟩ none (by decide)
      rw [this]
      decide⟩

/-- The always-empty pass-2 existence oracle: nothing is on disk. -/
def noFile : String → Bool := fun _ => false

/-- C5 counterexample: a file that exists during listing but vanishes before
`stat` is skipped by pass 1 without being marked seen, so the reconciliation
pass of the same run still processes its pre-existing row: with `--clean` the
row is deleted, and without `--clean` the path is printed in the missing-files
warning — contradicting "no change to any index record and no user-visible
error" for the vanished-before-stat case. -/
theorem transient_vanish_counterexample :
    (cmd_sync_run [".epub"] true [⟨"/r/a.epub", none, none⟩] noFile
        [⟨"/r/a.epub", "F", 1, 1, ".epub"⟩]).db = [] ∧
    (cmd_sync_run [".epub"] true [⟨"/r/a.epub", none, none⟩] noFile
        [⟨"/r/a.epub", "F", 1, 1, ".epub"⟩]).removed_missing = 1 ∧
    (cmd_sync_run [".epub"] false [⟨"/r/a.epub", none, none⟩] noFile
        [⟨"/r/a.epub", "F", 1, 1, ".epub"⟩]).missing = ["/r/a.epub"] := by
  decide

/-- C5 (amended): only the vanish-during-read race is fully benign.  A file
that stats successfully but disappears before its content is fully read is
skipped with its path already recorded as seen, so the run neither rewrites
nor deletes any pre-existing row for that path and never reports it missing.
A file that vanishes before `stat` is skipped by pass 1, but its stale row is
then subject to ordinary pass-2 reconciliation like any other gone path. -/
theorem transient_vanish_read_benign (exts : List String) (clean : Bool)
    (walk : List WalkItem) (ex2 : String → Bool) (db0 : DB) (p : String)
    (hocc : ∃ w ∈ walk, w.path = p)
    (hall : ∀ w ∈ walk, w.path = p → w.statRes.isSome ∧ w.readRes = none)
    (hinc : includedExt exts p = true) :
    (cmd_sync_run exts clean walk ex2 db0).db.filter (fun x => x.path == p)
        = db0.filter (fun x => x.path == p) ∧
    p ∉ (cmd_sync_run exts clean walk ex2 db0).missing := by
  set st1 := pass1 exts ⟨db0, [], [], 0, []⟩ walk with hst1
  have hp1 : st1.db.filter (fun x => x.path == p) = db0.filter (fun x => x.path == p) := by
    rw [hst1]
    exact pass1_filterPath (fun w hw hp => (hall w hw hp).2)
  have hseenp : p ∈ st1.seen := by
    rcases hocc with ⟨w, hw, hwp⟩
    rw [hst1, pass1_seen]
    refine mem_seenFold.mpr (Or.inr ⟨w, hw, by rw [hwp]; exact hinc,
      (hall w hw hwp).1, hwp⟩)
  have hcont : st1.seen.contains p = true := contains_true_iff.mpr hseenp
  have hdb : (cmd_sync_run exts clean walk ex2 db0).db
      = (reconcile clean ex2 st1.seen ⟨st1.db, [], 0, 0, st1.calls⟩
          (st1.db.map (fun r => (r.path, r.hash)))).db := rfl
  have hmiss : (cmd_sync_run exts clean walk ex2 db0).missing
      = (reconcile clean ex2 st1.seen ⟨st1.db, [], 0, 0, st1.calls⟩
          (st1.db.map (fun r => (r.path, r.hash)))).missing := rfl
  constructor
  · rw [hdb, recon_filterPath_seen clean ex2 ⟨st1.db, [], 0, 0, st1.calls⟩
      (st1.db.map (fun r => (r.path, r.hash))) hcont]
    exact hp1
  · rw [hmiss]
    rcases recon_missing_spec clean ex2 st1.seen ⟨st1.db, [], 0, 0, st1.calls⟩
        (st1.db.map (fun r => (r.path, r.hash))) with ⟨l, hl, hlseen⟩
    rw [hl]
    intro hmem
    rcases List.mem_append.mp hmem with hmem | hmem
    · cases hmem
    · rw [hlseen p hmem] at hcont
      cases hcont

/-- C5 witness: a one-file walk whose file stats but vanishes during the
read, over a table that already has a row for it: the row set at that path is
unchanged and the path is not reported missing. -/
theorem transient_vanish_read_benign_witness :
    (∃ w ∈ [(⟨"/r/a.epub", some (1, 1), none⟩ : WalkItem)], w.path = "/r/a.epub") ∧
    (cmd_sync_run [".epub"] false [⟨"/r/a.epub", some (1, 1), none⟩] noFile
        [⟨"/r/a.epub", "F", 9, 9, ".epub"⟩]).db.filter
          (fun x => x.path == "/r/a.epub")
        = ([⟨"/r/a.epub", "F", 9, 9, ".epub"⟩] : DB).filter
          (fun x => x.path == "/r/a.epub") ∧
    "/r/a.epub" ∉ (cmd_sync_run [".epub"] false [⟨"/r/a.epub", some (1, 1), none⟩]
        noFile [⟨"/r/a.epub", "F", 9, 9, ".epub"⟩]).missing := by
  refine ⟨by decide, ?_⟩
  exact transient_vanish_read_benign [".epub"] false
    [⟨"/r/a.epub", some (1, 1), none⟩] noFile [⟨"/r/a.epub", "F", 9, 9, ".epub"⟩]
    "/r/a.epub" (by decide) (by decide) (by decide)

/-! ## Claim theorem: move detection -/

/-- C1: a file `A` indexed with fingerprint `F` that has been renamed to `B`
on disk is repaired by one `sync` run: the new path is hashed and inserted,
the stale row for `A` is deleted as moved (under either `--clean` setting),
and afterwards the table holds exactly one row with fingerprint `F`, at path
`B`, while `A` is not in the missing-files warning list. -/
theorem move_detection (exts : List String) (clean : Bool) (A B F : String)
    (sz sz0 : Nat) (mt mt0 : Int) (ext0 : String)
    (hAB : A ≠ B) (hinc : includedExt exts B = true) :
    (cmd_sync exts clean [(B, ⟨sz, mt, F⟩)] [⟨A, F, sz0, mt0, ext0⟩]).db
        = [⟨B, F, sz, mt, lowerStr (pySuffix B)⟩] ∧
    (cmd_sync exts clean [(B, ⟨sz, mt, F⟩)] [⟨A, F, sz0, mt0, ext0⟩]).missing = [] ∧
    (cmd_sync exts clean [(B, ⟨sz, mt, F⟩)] [⟨A, F, sz0, mt0, ext0⟩]).removed_moved
        = 1 := by
  have hAB' : (A == B) = false := beq_eq_false_iff_ne.mpr hAB
  have hBA' : (B == A) = false := beq_eq_false_iff_ne.mpr (Ne.symm hAB)
  have hlkB : lookupFS [(B, (⟨sz, mt, F⟩ : FileInfo))] B = some ⟨sz, mt, F⟩ := by
    simp [lookupFS]
  have hlkA : lookupFS [(B, (⟨sz, mt, F⟩ : FileInfo))] A = none := by
    simp [lookupFS, hBA']
  have hexB : existsFS [(B, (⟨sz, mt, F⟩ : FileInfo))] B = true := by
    simp [existsFS, hlkB]
  have hexA : existsFS [(B, (⟨sz, mt, F⟩ : FileInfo))] A = false := by
    simp [existsFS, hlkA]
  have hwalk : walkOf [(B, (⟨sz, mt, F⟩ : FileInfo))]
      = [⟨B, some (sz, mt), some F⟩] := by
    simp [walkOf, statFS, sha256, hlkB]
  have hle : lookupExact [(⟨A, F, sz0, mt0, ext0⟩ : FileRecord)] B sz mt = none := by
    simp [lookupExact, hAB']
  have hst1 : pass1 exts ⟨[⟨A, F, sz0, mt0, ext0⟩], [], [], 0, []⟩
      (walkOf [(B, (⟨sz, mt, F⟩ : FileInfo))])
      = ⟨[⟨A, F, sz0, mt0, ext0⟩, ⟨B, F, sz, mt, lowerStr (pySuffix B)⟩], [B], [F], 1,
          [DbCall.exec (DBOp.up ⟨B, F, sz, mt, lowerStr (pySuffix B)⟩)]⟩ := by
    rw [hwalk]
    simp only [pass1, List.foldl_cons, List.foldl_nil]
    unfold pass1Step
    rw [if_pos hinc]
    simp [upsert_and_track, hle, insertUniq, upsert, hAB']
  have hrun : cmd_sync exts clean [(B, ⟨sz, mt, F⟩)] [⟨A, F, sz0, mt0, ext0⟩]
      = (let rst := reconcile clean (existsFS [(B, ⟨sz, mt, F⟩)]) [B]
            ⟨[⟨A, F, sz0, mt0, ext0⟩, ⟨B, F, sz, mt, lowerStr (pySuffix B)⟩], [], 0, 0,
              [DbCall.exec (DBOp.up ⟨B, F, sz, mt, lowerStr (pySuffix B)⟩)]⟩
            [(A, F), (B, F)]
         ⟨rst.db, rst.missing, rst.removed_moved, rst.removed_missing, 1,
           rst.calls ++ [DbCall.commit]⟩) := by
    show cmd_sync_run exts clean (walkOf [(B, ⟨sz, mt, F⟩)])
        (existsFS [(B, ⟨sz, mt, F⟩)]) [⟨A, F, sz0, mt0, ext0⟩] = _
    simp only [cmd_sync_run]
    rw [hst1]
    rfl
  have hcontA : ([B] : List String).contains A = false := by
    simp [List.contains, List.elem, hAB']
  have hcontB : ([B] : List String).contains B = true := by
    simp [List.contains, List.elem]
  have hmv : (pathsWithHashExcluding
        [⟨A, F, sz0, mt0, ext0⟩, ⟨B, F, sz, mt, lowerStr (pySuffix B)⟩] F A).any
        (existsFS [(B, (⟨sz, mt, F⟩ : FileInfo))]) = true := by
    simp [pathsWithHashExcluding, bne, hBA', hexB]
  have hstep1 : reconcileStep clean (existsFS [(B, ⟨sz, mt, F⟩)]) [B]
      ⟨[⟨A, F, sz0, mt0, ext0⟩, ⟨B, F, sz, mt, lowerStr (pySuffix B)⟩], [], 0, 0,
        [DbCall.exec (DBOp.up ⟨B, F, sz, mt, lowerStr (pySuffix B)⟩)]⟩ (A, F)
      = ⟨[⟨B, F, sz, mt, lowerStr (pySuffix B)⟩], [], 1, 0,
          [DbCall.exec (DBOp.up ⟨B, F, sz, mt, lowerStr (pySuffix B)⟩),
           DbCall.exec (DBOp.del A)]⟩ := by
    rw [reconcileStep_moved hcontA hexA hmv]
    simp [deleteByPath, bne, hAB', hBA']
  have hstep2 : reconcileStep clean (existsFS [(B, ⟨sz, mt, F⟩)]) [B]
      ⟨[⟨B, F, sz, mt, lowerStr (pySuffix B)⟩], [], 1, 0,
        [DbCall.exec (DBOp.up ⟨B, F, sz, mt, lowerStr (pySuffix B)⟩),
         DbCall.exec (DBOp.del A)]⟩ (B, F)
      = ⟨[⟨B, F, sz, mt, lowerStr (pySuffix B)⟩], [], 1, 0,
          [DbCall.exec (DBOp.up ⟨B, F, sz, mt, lowerStr (pySuffix B)⟩),
           DbCall.exec (DBOp.del A)]⟩ :=
    reconcileStep_skip_seen hcontB
  have hrec : reconcile clean (existsFS [(B, ⟨sz, mt, F⟩)]) [B]
      ⟨[⟨A, F, sz0, mt0, ext0⟩, ⟨B, F, sz, mt, lowerStr (pySuffix B)⟩], [], 0, 0,
        [DbCall.exec (DBOp.up ⟨B, F, sz, mt, lowerStr (pySuffix B)⟩)]⟩
      [(A, F), (B, F)]
      = ⟨[⟨B, F, sz, mt, lowerStr (pySuffix B)⟩], [], 1, 0,
          [DbCall.exec (DBOp.up ⟨B, F, sz, mt, lowerStr (pySuffix B)⟩),
           DbCall.exec (DBOp.del A)]⟩ := by
    rw [recon_cons, hstep1, recon_cons, hstep2]
    rfl
  rw [hrun]
  simp [hrec]

/-- C1 witness: the rename scenario at concrete paths, sizes and times. -/
theorem move_detection_witness :
    "/r/a.epub" ≠ "/r/b.epub" ∧
    includedExt [".epub"] "/r/b.epub" = true ∧
    (cmd_sync [".epub"] false [("/r/b.epub", ⟨5, 2, "F"⟩)]
        [⟨"/r/a.epub", "F", 5, 1, ".epub"⟩]).db
      = [⟨"/r/b.epub", "F", 5, 2, lowerStr (pySuffix "/r/b.epub")⟩] ∧
    (cmd_sync [".epub"] false [("/r/b.epub", ⟨5, 2, "F"⟩)]
        [⟨"/r/a.epub", "F", 5, 1, ".epub"⟩]).missing = [] := by
  refine ⟨by decide, by decide, ?_, ?_⟩
  · exact (move_detection [".epub"] false "/r/a.epub" "/r/b.epub" "F" 5 5 2 1 ".epub"
      (by decide) (by decide)).1
  · exact (move_detection [".epub"] false "/r/a.epub" "/r/b.epub" "F" 5 5 2 1 ".epub"
      (by decide) (by decide)).2.1

/-! ## Claim theorem: missing without duplicate -/

theorem uat_paths_nodup {st : SyncSt} {p : String} {sr : Option (Nat × Int)}
    {rr : Option String} (h : pathsNodup st.db) :
    pathsNodup (upsert_and_track st p sr rr).db := by
  rcases sr with _ | ⟨sz, mt⟩
  · exact h
  · rcases hle : lookupExact st.db p sz mt with _ | hh
    · rcases rr with _ | hh2
      · simpa [upsert_and_track, hle] using h
      · simp only [upsert_and_track, hle]
        exact upsert_paths_nodup h
    · simpa [upsert_and_track, hle] using h

theorem pass1_paths_nodup {exts : List String} {walk : List WalkItem} (st : SyncSt)
    (h : pathsNodup st.db) : pathsNodup (pass1 exts st walk).db := by
  induction walk generalizing st with
  | nil => exact h
  | cons w ws ih =>
    refine ih (pass1Step exts st w) ?_
    unfold pass1Step
    split
    · exact uat_paths_nodup h
    · exact h

theorem reconcileStep_filterPath_ne {clean : Bool} {ex2 : String → Bool}
    {seen : List String} {st : RecSt} {e : String × String} {p : String}
    (hne : e.1 ≠ p) :
    (reconcileStep clean ex2 seen st e).db.filter (fun x => x.path == p)
      = st.db.filter (fun x => x.path == p) := by
  by_cases h1 : seen.contains e.1 = true
  · rw [reconcileStep_skip_seen h1]
  · rw [Bool.not_eq_true] at h1
    by_cases h2 : ex2 e.1 = true
    · rw [reconcileStep_skip_exists h1 h2]
    · rw [Bool.not_eq_true] at h2
      by_cases h3 : (pathsWithHashExcluding st.db e.2 e.1).any ex2 = true
      · rw [reconcileStep_moved h1 h2 h3]
        exact filterPath_deleteByPath_ne hne
      · rw [Bool.not_eq_true] at h3
        cases clean
        · rw [reconcileStep_missing_warn h1 h2 h3]
        · rw [reconcileStep_missing_clean h1 h2 h3]
          exact filterPath_deleteByPath_ne hne

theorem recon_filterPath_notin {clean : Bool} {ex2 : String → Bool}
    {seen : List String} {es : List (String × String)} (st : RecSt) {p : String}
    (h : ∀ e ∈ es, e.1 ≠ p) :
    (reconcile clean ex2 seen st es).db.filter (fun x => x.path == p)
      = st.db.filter (fun x => x.path == p) := by
  induction es generalizing st with
  | nil => rfl
  | cons e es' ih =>
    rw [recon_cons]
    exact (ih (reconcileStep clean ex2 seen st e)
        (fun e' he' => h e' (List.mem_cons_of_mem _ he'))).trans
      (reconcileStep_filterPath_ne (h e (List.mem_cons_self _ _)))

/-- C4: an indexed row whose path is gone from disk and whose fingerprint no
other on-disk path carries (neither physically nor in the table) is retained
and reported in the missing warning list when `--clean` is off, and deleted —
counted in `missing_removed` — when `--clean` is on. -/
theorem sync_missing_unique (exts : List String) (clean : Bool) (fs : FS) (db0 : DB)
    (r0 : FileRecord) (hnd : pathsNodup db0) (hmem : r0 ∈ db0)
    (hgone : lookupFS fs r0.path = none)
    (hnodb : ∀ r' ∈ db0, r'.hash = r0.hash → r'.path ≠ r0.path →
      lookupFS fs r'.path = none)
    (hnofs : ∀ e ∈ fs, (e.2).hash ≠ r0.hash) :
    (clean = false → r0 ∈ (cmd_sync exts clean fs db0).db ∧
        r0.path ∈ (cmd_sync exts clean fs db0).missing) ∧
    (clean = true → (∀ x ∈ (cmd_sync exts clean fs db0).db, x.path ≠ r0.path) ∧
        1 ≤ (cmd_sync exts clean fs db0).removed_missing) := by
  have hsw := walkOf_static fs
  set st1 := pass1 exts ⟨db0, [], [], 0, []⟩ (walkOf fs) with hst1
  have hvan : ∀ w ∈ walkOf fs, w.path = r0.path → w.readRes = none := by
    intro w hw hwp
    rw [(hsw w hw).2, hwp]
    unfold sha256
    rw [hgone]
    rfl
  have hfilter1 : st1.db.filter (fun x => x.path == r0.path)
      = db0.filter (fun x => x.path == r0.path) := by
    rw [hst1]
    exact pass1_filterPath hvan
  have hr0st1 : r0 ∈ st1.db := by
    have h1 : r0 ∈ db0.filter (fun x => x.path == r0.path) :=
      List.mem_filter.mpr ⟨hmem, by simp⟩
    rw [← hfilter1] at h1
    exact (List.mem_filter.mp h1).1
  have hnseen : st1.seen.contains r0.path = false := by
    rw [Bool.eq_false_iff]
    intro hc
    have hmem' := contains_true_iff.mp hc
    rw [hst1, pass1_seen] at hmem'
    rcases mem_seenFold.mp hmem' with h | ⟨w, hw, _, hsm, hwp⟩
    · simp at h
    · rw [(hsw w hw).1, hwp] at hsm
      unfold statFS at hsm
      rw [hgone] at hsm
      cases hsm
  have hex0 : existsFS fs r0.path = false := by
    unfold existsFS
    rw [hgone]
    rfl
  have hsafe : safePair (existsFS fs) st1.db (r0.path, r0.hash) := by
    intro r' hr' hh hne
    rcases pass1_db_mem _ (hst1 ▸ hr') with hin | ⟨w, hw, sz, mt, h, hsr, hrr, rfl⟩
    · unfold existsFS
      rw [hnodb r' hin hh hne]
      rfl
    · exfalso
      rw [(hsw w hw).2] at hrr
      unfold sha256 at hrr
      rcases hlw : lookupFS fs w.path with _ | fi
      · rw [hlw] at hrr
        cases hrr
      · rw [hlw] at hrr
        simp only [Option.map_some'] at hrr
        refine hnofs _ (lookupFS_mem hlw) ?_
        show fi.hash = r0.hash
        rw [Option.some.inj hrr]
        exact hh
  have hnd1 : pathsNodup st1.db := by
    rw [hst1]
    exact pass1_paths_nodup _ hnd
  have hmemes : ((r0.path, r0.hash) : String × String)
      ∈ st1.db.map (fun r => (r.path, r.hash)) :=
    List.mem_map.mpr ⟨r0, hr0st1, rfl⟩
  rcases List.append_of_mem hmemes with ⟨l1, l2, hsplit⟩
  have hfst : ((st1.db.map (fun r => (r.path, r.hash))).map (·.1)).Nodup := by
    rw [List.map_map]
    exact hnd1
  have hfst' : ((l1 ++ (r0.path, r0.hash) :: l2).map (·.1)).Nodup := by
    rw [← hsplit]
    exact hfst
  rw [List.map_append, List.map_cons] at hfst'
  have hl1 : ∀ e ∈ l1, e.1 ≠ r0.path := by
    intro e he heq
    exact (List.disjoint_of_nodup_append hfst')
      (List.mem_map.mpr ⟨e, he, rfl⟩) (heq ▸ List.mem_cons_self _ _)
  have hl2 : ∀ e ∈ l2, e.1 ≠ r0.path := by
    intro e he heq
    have hr := List.Nodup.of_append_right hfst'
    exact (List.nodup_cons.mp hr).1 (heq ▸ List.mem_map.mpr ⟨e, he, rfl⟩)
  have hdecomp : reconcile clean (existsFS fs) st1.seen ⟨st1.db, [], 0, 0, st1.calls⟩
        (st1.db.map (fun r => (r.path, r.hash)))
      = reconcile clean (existsFS fs) st1.seen
          (reconcileStep clean (existsFS fs) st1.seen
            (reconcile clean (existsFS fs) st1.seen ⟨st1.db, [], 0, 0, st1.calls⟩ l1)
            (r0.path, r0.hash)) l2 := by
    rw [hsplit, recon_append, recon_cons]
  set mid := reconcile clean (existsFS fs) st1.seen ⟨st1.db, [], 0, 0, st1.calls⟩ l1
    with hmiddef
  have hmsafe : (pathsWithHashExcluding mid.db r0.hash r0.path).any (existsFS fs)
      = false :=
    safePair_any_false (e := (r0.path, r0.hash))
      (safePair_mono (fun x hx => recon_db_sub _ (hmiddef ▸ hx)) hsafe)
  have hfilmid : mid.db.filter (fun x => x.path == r0.path)
      = st1.db.filter (fun x => x.path == r0.path) := by
    rw [hmiddef]
    exact recon_filterPath_notin _ hl1
  have hrdb : (cmd_sync exts clean fs db0).db
      = (reconcile clean (existsFS fs) st1.seen ⟨st1.db, [], 0, 0, st1.calls⟩
          (st1.db.map (fun r => (r.path, r.hash)))).db := rfl
  have hrmiss : (cmd_sync exts clean fs db0).missing
      = (reconcile clean (existsFS fs) st1.seen ⟨st1.db, [], 0, 0, st1.calls⟩
          (st1.db.map (fun r => (r.path, r.hash)))).missing := rfl
  have hrrm : (cmd_sync exts clean fs db0).removed_missing
      = (reconcile clean (existsFS fs) st1.seen ⟨st1.db, [], 0, 0, st1.calls⟩
          (st1.db.map (fun r => (r.path, r.hash)))).removed_missing := rfl
  cases clean
  · refine ⟨fun _ => ?_, fun hcl => by cases hcl⟩
    have hstep : reconcileStep false (existsFS fs) st1.seen mid (r0.path, r0.hash)
        = { mid with missing := mid.missing ++ [r0.path] } :=
      reconcileStep_missing_warn hnseen hex0 hmsafe
    constructor
    · rw [hrdb, hdecomp, hstep]
      have hfil2 : (reconcile false (existsFS fs) st1.seen
            { mid with missing := mid.missing ++ [r0.path] } l2).db.filter
            (fun x => x.path == r0.path)
          = mid.db.filter (fun x => x.path == r0.path) :=
        recon_filterPath_notin _ hl2
      have hr0f : r0 ∈ mid.db.filter (fun x => x.path == r0.path) := by
        rw [hfilmid, hfilter1]
        exact List.mem_filter.mpr ⟨hmem, by simp⟩
      have : r0 ∈ (reconcile false (existsFS fs) st1.seen
          { mid with missing := mid.missing ++ [r0.path] } l2).db.filter
          (fun x => x.path == r0.path) := by
        rw [hfil2]
        exact hr0f
      exact (List.mem_filter.mp this).1
    · rw [hrmiss, hdecomp, hstep]
      rcases recon_missing_spec false (existsFS fs) st1.seen
          { mid with missing := mid.missing ++ [r0.path] } l2 with ⟨l, hl, _⟩
      rw [hl]
      simp
  · refine ⟨(fun hcl => by cases hcl), fun _ => ?_⟩
    have hstep : reconcileStep true (existsFS fs) st1.seen mid (r0.path, r0.hash)
        = { mid with db := deleteByPath mid.db r0.path
                     removed_missing := mid.removed_missing + 1
                     calls := mid.calls ++ [DbCall.exec (DBOp.del r0.path)] } :=
      reconcileStep_missing_clean hnseen hex0 hmsafe
    constructor
    · intro x hx
      rw [hrdb, hdecomp, hstep] at hx
      have hx' := recon_db_sub _ hx
      simp only at hx'
      exact (mem_deleteByPath.mp hx').2
    · rw [hrrm, hdecomp, hstep]
      refine le_trans ?_ (recon_removed_missing_le true (existsFS fs) st1.seen _ l2)
      simp

/-- C4 witness: a one-row table whose file is gone and whose hash is unique:
without `--clean` the row is kept and warned about, with `--clean` it is
removed and counted. -/
theorem sync_missing_unique_witness :
    (⟨"/r/a.epub", "F", 1, 1, ".epub"⟩ : FileRecord)
        ∈ (cmd_sync [".epub"] false [] [⟨"/r/a.epub", "F", 1, 1, ".epub"⟩]).db ∧
    "/r/a.epub" ∈ (cmd_sync [".epub"] false [] [⟨"/r/a.epub", "F", 1, 1, ".epub"⟩]).missing ∧
    (∀ x ∈ (cmd_sync [".epub"] true [] [⟨"/r/a.epub", "F", 1, 1, ".epub"⟩]).db,
      x.path ≠ "/r/a.epub") ∧
    1 ≤ (cmd_sync [".epub"] true [] [⟨"/r/a.epub", "F", 1, 1, ".epub"⟩]).removed_missing := by
  have h1 := (sync_missing_unique [".epub"] false [] [⟨"/r/a.epub", "F", 1, 1, ".epub"⟩]
    ⟨"/r/a.epub", "F", 1, 1, ".epub"⟩ (by decide) (by decide) (by decide)
    (by intro r' hr' _ hne; simp at hr'; rw [hr'] at hne; simp at hne)
    (by intro e he; cases he)).1 rfl
  have h2 := (sync_missing_unique [".epub"] true [] [⟨"/r/a.epub", "F", 1, 1, ".epub"⟩]
    ⟨"/r/a.epub", "F", 1, 1, ".epub"⟩ (by decide) (by decide) (by decide)
    (by intro r' hr' _ hne; simp at hr'; rw [hr'] at hne; simp at hne)
    (by intro e he; cases he)).2 rfl
  exact ⟨h1.1, h1.2, h2.1, h2.2⟩

/-! ## Claim theorem: one commit at the very end of a sync run -/

theorem curAfter_append {db : DB} {xs ys : List DbCall} :
    curAfter db (xs ++ ys) = curAfter (curAfter db xs) ys := by
  induction xs generalizing db with
  | nil => rfl
  | cons c cs ih =>
    cases c
    · exact ih
    · exact ih

theorem persist_noCommit {com cur : DB} {calls : List DbCall}
    (h : ∀ c ∈ calls, c ≠ DbCall.commit) : persistedRun com cur calls = com := by
  induction calls generalizing cur with
  | nil => rfl
  | cons c cs ih =>
    cases c
    · exact ih (fun c' hc' => h c' (List.mem_cons_of_mem _ hc'))
    · exact absurd rfl (h _ (List.mem_cons_self _ _))

theorem persist_append_commit {com cur : DB} {xs : List DbCall}
    (h : ∀ c ∈ xs, c ≠ DbCall.commit) :
    persistedRun com cur (xs ++ [DbCall.commit]) = curAfter cur xs := by
  induction xs generalizing com cur with
  | nil => rfl
  | cons c cs ih =>
    cases c
    · exact ih (fun c' hc' => h c' (List.mem_cons_of_mem _ hc'))
    · exact absurd rfl (h _ (List.mem_cons_self _ _))

/-- `upsert_and_track` only ever appends DML calls, and replaying its call
list over the pre-run table reproduces its in-transaction table. -/
theorem uat_calls {db0 : DB} {st : SyncSt} {p : String} {sr : Option (Nat × Int)}
    {rr : Option String}
    (h1 : curAfter db0 st.calls = st.db) (h2 : ∀ c ∈ st.calls, c ≠ DbCall.commit) :
    curAfter db0 (upsert_and_track st p sr rr).calls = (upsert_and_track st p sr rr).db ∧
    ∀ c ∈ (upsert_and_track st p sr rr).calls, c ≠ DbCall.commit := by
  rcases sr with _ | ⟨sz, mt⟩
  · exact ⟨h1, h2⟩
  · rcases hle : lookupExact st.db p sz mt with _ | hh
    · rcases rr with _ | hh2
      · constructor
        · simpa [upsert_and_track, hle] using h1
        · simpa [upsert_and_track, hle] using h2
      · simp only [upsert_and_track, hle]
        constructor
        · rw [curAfter_append, h1]
          rfl
        · intro c hc
          rcases List.mem_append.mp hc with hc | hc
          · exact h2 c hc
          · simp only [List.mem_singleton] at hc
            subst hc
            intro hcon
            cases hcon
    · constructor
      · simpa [upsert_and_track, hle] using h1
      · simpa [upsert_and_track, hle] using h2

theorem pass1_calls {db0 : DB} {exts : List String} {walk : List WalkItem} (st : SyncSt)
    (h1 : curAfter db0 st.calls = st.db) (h2 : ∀ c ∈ st.calls, c ≠ DbCall.commit) :
    curAfter db0 (pass1 exts st walk).calls = (pass1 exts st walk).db ∧
    ∀ c ∈ (pass1 exts st walk).calls, c ≠ DbCall.commit := by
  induction walk generalizing st with
  | nil => exact ⟨h1, h2⟩
  | cons w ws ih =>
    refine ih (pass1Step exts st w) ?_ ?_
    all_goals
      unfold pass1Step
      split
    · exact (uat_calls h1 h2).1
    · exact h1
    · exact (uat_calls h1 h2).2
    · exact h2

theorem reconcileStep_calls {db0 : DB} {clean : Bool} {ex2 : String → Bool}
    {seen : List String} {st : RecSt} {e : String × String}
    (h1 : curAfter db0 st.calls = st.db) (h2 : ∀ c ∈ st.calls, c ≠ DbCall.commit) :
    curAfter db0 (reconcileStep clean ex2 seen st e).calls
        = (reconcileStep clean ex2 seen st e).db ∧
    ∀ c ∈ (reconcileStep clean ex2 seen st e).calls, c ≠ DbCall.commit := by
  have hdel : curAfter db0 (st.calls ++ [DbCall.exec (DBOp.del e.1)])
      = deleteByPath st.db e.1 := by
    rw [curAfter_append, h1]
    rfl
  have hdel2 : ∀ c ∈ st.calls ++ [DbCall.exec (DBOp.del e.1)], c ≠ DbCall.commit := by
    intro c hc
    rcases List.mem_append.mp hc with hc | hc
    · exact h2 c hc
    · simp only [List.mem_singleton] at hc
      subst hc
      intro hcon
      cases hcon
  by_cases hs1 : seen.contains e.1 = true
  · rw [reconcileStep_skip_seen hs1]
    exact ⟨h1, h2⟩
  · rw [Bool.not_eq_true] at hs1
    by_cases hs2 : ex2 e.1 = true
    · rw [reconcileStep_skip_exists hs1 hs2]
      exact ⟨h1, h2⟩
    · rw [Bool.not_eq_true] at hs2
      by_cases hs3 : (pathsWithHashExcluding st.db e.2 e.1).any ex2 = true
      · rw [reconcileStep_moved hs1 hs2 hs3]
        exact ⟨hdel, hdel2⟩
      · rw [Bool.not_eq_true] at hs3
        cases clean
        · rw [reconcileStep_missing_warn hs1 hs2 hs3]
          exact ⟨h1, h2⟩
        · rw [reconcileStep_missing_clean hs1 hs2 hs3]
          exact ⟨hdel, hdel2⟩

theorem recon_calls {db0 : DB} {clean : Bool} {ex2 : String → Bool}
    {seen : List String} {es : List (String × String)} (st : RecSt)
    (h1 : curAfter db0 st.calls = st.db) (h2 : ∀ c ∈ st.calls, c ≠ DbCall.commit) :
    curAfter db0 (reconcile clean ex2 seen st es).calls
        = (reconcile clean ex2 seen st es).db ∧
    ∀ c ∈ (reconcile clean ex2 seen st es).calls, c ≠ DbCall.commit := by
  induction es generalizing st with
  | nil => exact ⟨h1, h2⟩
  | cons e es' ih =>
    rw [recon_cons]
    exact ih (reconcileStep clean ex2 seen st e)
      (reconcileStep_calls h1 h2).1 (reconcileStep_calls h1 h2).2

theorem take_append_le {α : Type _} {xs ys : List α} {k : Nat} (h : k ≤ xs.length) :
    (xs ++ ys).take k = xs.take k := by
  induction xs generalizing k with
  | nil =>
    have : k = 0 := Nat.le_zero.mp h
    subst this
    rfl
  | cons x xs' ih =>
    cases k with
    | zero => rfl
    | succ k' =>
      simp only [List.cons_append, List.take_succ_cons]
      rw [ih (Nat.le_of_succ_le_succ h)]

/-- C10: all table mutations of one `sync` run happen inside the single
transaction committed by the one `conn.commit()` at the end of the run: an
interruption before that final call leaves the durable table exactly as it
was before the run, and the commit makes the run's final table durable. -/
theorem sync_single_commit (exts : List String) (clean : Bool)
    (walk : List WalkItem) (ex2 : String → Bool) (db0 : DB) :
    (∀ k, k < (cmd_sync_run exts clean walk ex2 db0).calls.length →
      persistedRun db0 db0 ((cmd_sync_run exts clean walk ex2 db0).calls.take k)
        = db0) ∧
    persistedRun db0 db0 (cmd_sync_run exts clean walk ex2 db0).calls
      = (cmd_sync_run exts clean walk ex2 db0).db := by
  set st1 := pass1 exts ⟨db0, [], [], 0, []⟩ walk with hst1
  have hp1 : curAfter db0 st1.calls = st1.db ∧ ∀ c ∈ st1.calls, c ≠ DbCall.commit := by
    rw [hst1]
    exact pass1_calls _ rfl (by intro c hc; cases hc)
  set rst := reconcile clean ex2 st1.seen ⟨st1.db, [], 0, 0, st1.calls⟩
      (st1.db.map (fun r => (r.path, r.hash))) with hrst
  have hp2 : curAfter db0 rst.calls = rst.db ∧ ∀ c ∈ rst.calls, c ≠ DbCall.commit := by
    rw [hrst]
    exact recon_calls _ hp1.1 hp1.2
  have hcalls : (cmd_sync_run exts clean walk ex2 db0).calls
      = rst.calls ++ [DbCall.commit] := rfl
  have hdb : (cmd_sync_run exts clean walk ex2 db0).db = rst.db := rfl
  constructor
  · intro k hk
    rw [hcalls] at hk ⊢
    have hk' : k ≤ rst.calls.length := by
      rw [List.length_append, List.length_singleton] at hk
      exact Nat.lt_succ_iff.mp hk
    rw [take_append_le hk']
    refine persist_noCommit ?_
    intro c hc
    exact hp2.2 c (List.take_subset _ _ hc)
  · rw [hcalls, hdb, persist_append_commit hp2.2, hp2.1]

/-- C10 witness: a one-file run over an empty table: interrupting before the
final call leaves the durable table empty, and the full trace commits exactly
the run's final table. -/
theorem sync_single_commit_witness :
    1 < (cmd_sync_run [".epub"] false [⟨"/r/a.epub", some (1, 1), some "F"⟩]
        noFile []).calls.length ∧
    persistedRun [] [] ((cmd_sync_run [".epub"] false
        [⟨"/r/a.epub", some (1, 1), some "F"⟩] noFile []).calls.take 1) = [] ∧
    persistedRun [] [] (cmd_sync_run [".epub"] false
        [⟨"/r/a.epub", some (1, 1), some "F"⟩] noFile []).calls
      = (cmd_sync_run [".epub"] false [⟨"/r/a.epub", some (1, 1), some "F"⟩]
          noFile []).db :=
  ⟨by decide,
    (sync_single_commit [".epub"] false [⟨"/r/a.epub", some (1, 1), some "F"⟩]
      noFile []).1 1 (by decide),
    (sync_single_commit [".epub"] false [⟨"/r/a.epub", some (1, 1), some "F"⟩]
      noFile []).2⟩

end EbookManager
